import Mathlib

/- Verification of the buildsys artifact lifecycle manager (marker files,
promotion, garbage collection), the retrying docker invocation engine, the
build orchestrator's cleanup ordering, and the secrets argument assembly,
as implemented in tools/buildsys/src/builder.rs.

The filesystem is modelled as a finite association list from absolute
paths (component lists) to node kinds.  Symlinks are modelled as opaque
leaf entries: their targets are not tracked, so a symlink never counts as
a directory or regular file, matching the behavior of walkdir with
follow_links(false) for the entries this code manipulates. -/

/-- A filesystem path, as its list of components ([] is the root "/"). -/
abbrev FPath := List String

/-- Node kinds: directories, regular files (carrying their size in bytes),
and symlinks (opaque leaf entries, targets untracked). -/
inductive FType where
  | dir : FType
  | file : Nat → FType
  | symlink : FType
deriving DecidableEq, Repr

/-- A filesystem: a finite association list from paths to node kinds. -/
abbrev FS := List (FPath × FType)

/-- Look up the node recorded at a path (first matching entry). -/
def lookupFS : FS → FPath → Option FType
  | [], _ => none
  | e :: es, p => if e.1 = p then some e.2 else lookupFS es p

/-- Remove every entry recorded at a path. -/
def eraseFS : FS → FPath → FS
  | [], _ => []
  | e :: es, p => if e.1 = p then eraseFS es p else e :: eraseFS es p

/-- Record a node at a path, replacing any previous entry. -/
def insertFS (fs : FS) (p : FPath) (t : FType) : FS :=
  (p, t) :: eraseFS fs p

/-- Keys occur at most once. -/
def keysNodupb : FS → Bool
  | [] => true
  | e :: es => !(es.any (fun e2 => e2.1 = e.1)) && keysNodupb es

/-- The nonempty strict prefixes of a path: `p.take n` for `0 < n < p.length`,
generalized to a lower bound on the length (used for walkdir ancestors). -/
def ancestorsBetween (dir p : FPath) : List FPath :=
  ((List.range p.length).filter (fun n => decide (dir.length < n))).map
    (fun n => p.take n)

/-- Every component of every key is a nonempty string, every nonempty strict
prefix of a key is a directory entry, and keys are unique.  This is the
well-formedness every real directory tree satisfies. -/
def wfb (fs : FS) : Bool :=
  keysNodupb fs &&
  fs.all (fun e =>
    e.1.all (fun c => !(c = "")) &&
    (ancestorsBetween [] e.1).all (fun q => lookupFS fs q = some FType.dir))

/-- `dir` is a strict ancestor of `p`. -/
def strictUnderb (dir p : FPath) : Bool :=
  decide (dir <+: p) && decide (dir.length < p.length)

-- =^..^=  paths and names  =^..^=

/-- The last component of a path ("" for the root). -/
def lastComponent : FPath → String
  | [] => ""
  | [x] => x
  | _ :: x :: xs => lastComponent (x :: xs)

/-- From builder.rs: `const MARKER_EXTENSION: &str = ".buildsys_marker";`. -/
def MARKER_EXTENSION : String := ".buildsys_marker"

/-- Rust `str::ends_with` for the marker suffix. -/
def endsWithMarker (s : String) : Bool :=
  MARKER_EXTENSION.toList.isSuffixOf s.toList

/-- The marker path for an artifact path: `OsString::push` appends the suffix
to the textual path, i.e. to the final component. -/
def markerPath : FPath → FPath
  | [] => [MARKER_EXTENSION]
  | [x] => [x ++ MARKER_EXTENSION]
  | x :: y :: xs => x :: markerPath (y :: xs)

/-- `Path::strip_prefix(base)` for paths below `base`: components after `base`. -/
def relUnder (base p : FPath) : FPath := p.drop base.length

/-- Given the reversed characters of a file name, the (still reversed)
characters strictly before the final dot, if any dot occurs. -/
def stripLastExtRev : List Char → Option (List Char)
  | [] => none
  | c :: cs => if c = '.' then some cs else stripLastExtRev cs

/-- Rust `Path::set_extension("")` on a file name: drop the final
dot-extension; a name whose only dot is the leading one has no extension
and is left unchanged. -/
def setExtEmptyName (s : String) : String :=
  match stripLastExtRev s.toList.reverse with
  | some rest => if rest = [] then s else String.mk rest.reverse
  | none => s

/-- Rust `PathBuf::set_extension("")`: rewrite the final component. -/
def setExtensionEmpty : FPath → FPath
  | [] => []
  | [x] => [setExtEmptyName x]
  | x :: y :: xs => x :: setExtensionEmpty (y :: xs)

/-- Byte-wise name comparison: Rust compares `OsStr` contents bytewise; on
these names the code-point order of the characters is the same order. -/
def charListCompare : List Char → List Char → Ordering
  | [], [] => .eq
  | [], _ :: _ => .lt
  | _ :: _, [] => .gt
  | c :: cs, d :: ds =>
    if c.toNat < d.toNat then .lt
    else if d.toNat < c.toNat then .gt
    else charListCompare cs ds

def strCompare (a b : String) : Ordering :=
  charListCompare a.toList b.toList

def pathCompare : FPath → FPath → Ordering
  | [], [] => .eq
  | [], _ :: _ => .lt
  | _ :: _, [] => .gt
  | a :: as, b :: bs =>
    match strCompare a b with
    | .eq => pathCompare as bs
    | o => o

-- =^..^=  filesystem primitives  =^..^=

inductive FsErr where
  | fileCreate (p : FPath)
  | dirCreate (p : FPath)
  | fileRemove (p : FPath)
  | rename (src dst : FPath)
deriving DecidableEq, Repr

/-- `File::create(p)`: truncate an existing regular file to zero length or
create a fresh empty file (the parent directory must exist).  A directory at
`p` is an error; a symlink at `p` would act on the untracked link target, so
the model reports an error there as well (the hypotheses of every theorem
using this operation exclude that case). -/
def createFileFS (fs : FS) (p : FPath) : Except FsErr FS :=
  match lookupFS fs p with
  | some (.file _) => .ok (insertFS fs p (.file 0))
  | some .dir => .error (.fileCreate p)
  | some .symlink => .error (.fileCreate p)
  | none =>
    if p.dropLast = [] ∨ lookupFS fs p.dropLast = some .dir then
      .ok (insertFS fs p (.file 0))
    else .error (.fileCreate p)

/-- `fs::create_dir_all`, creating each missing component from the root down;
a non-directory entry on the way is an error. -/
def createDirAllFrom (fs : FS) (done : FPath) : List String → Except FsErr FS
  | [] => .ok fs
  | c :: cs =>
    match lookupFS fs (done ++ [c]) with
    | some .dir => createDirAllFrom fs (done ++ [c]) cs
    | none => createDirAllFrom (insertFS fs (done ++ [c]) .dir) (done ++ [c]) cs
    | some _ => .error (.dirCreate (done ++ [c]))

def createDirAll (fs : FS) (p : FPath) : Except FsErr FS :=
  createDirAllFrom fs [] p

/-- `std::fs::remove_file`: removes a regular file or a symlink; fails on a
directory or a missing path. -/
def removeFileFS (fs : FS) (p : FPath) : Except FsErr FS :=
  match lookupFS fs p with
  | some .dir => .error (.fileRemove p)
  | some _ => .ok (eraseFS fs p)
  | none => .error (.fileRemove p)

/-- `fs::rename(src, dst)` as used by `copy_build_files`: the source is a
regular file or symlink found by `find_files`, and an existing regular file
at the destination is replaced, while a directory there is an error. -/
def renameFS (fs : FS) (src dst : FPath) : Except FsErr FS :=
  match lookupFS fs src with
  | none => .error (.rename src dst)
  | some t =>
    match lookupFS fs dst with
    | some .dir => .error (.rename src dst)
    | _ => .ok (insertFS (eraseFS fs src) dst t)

/-- `is_empty_dir` from `clean_build_files`: a directory whose `read_dir`
yields no entry. -/
def isEmptyDir (fs : FS) (p : FPath) : Bool :=
  lookupFS fs p = some FType.dir &&
  !(fs.any (fun e => e.1.length = p.length + 1 && decide (p <+: e.1)))

-- =^..^=  find_files  =^..^=

/-- walkdir with `filter_entry(pred)` reaches `p` iff every strict ancestor
strictly below the root is a directory accepted by the predicate. -/
def visitedBy (fs : FS) (dir : FPath) (pred : FPath → FType → Bool) (p : FPath) :
    Bool :=
  strictUnderb dir p &&
  (ancestorsBetween dir p).all
    (fun q => lookupFS fs q = some FType.dir && pred q .dir)

def isYieldedType : FType → Bool
  | .dir => false
  | .file _ => true
  | .symlink => true

/-- `find_files(dir, filter)`: walk `dir` (min_depth 1, not following links),
prune subtrees rejected by the filter, and yield the files and symlinks.
walkdir's yield order is the unspecified readdir order; the model yields in
entry order, which no theorem depends on. -/
def find_files (fs : FS) (dir : FPath) (pred : FPath → FType → Bool) :
    List FPath :=
  (fs.filter (fun e =>
    visitedBy fs dir pred e.1 && pred e.1 e.2 && isYieldedType e.2)).map
    (fun e => e.1)

/-- `has_artifacts` from `copy_build_files`: directories are traversed,
non-marker regular files and symlinks are yielded. -/
def has_artifacts (p : FPath) (t : FType) : Bool :=
  match t with
  | .dir => true
  | .file _ => !endsWithMarker (lastComponent p)
  | .symlink => true

/-- `has_markers` from `clean_build_files`: directories are traversed,
marker-suffixed regular files are yielded. -/
def has_markers (p : FPath) (t : FType) : Bool :=
  match t with
  | .dir => true
  | .file _ => endsWithMarker (lastComponent p)
  | .symlink => false

-- =^..^=  copy_build_files  =^..^=

/-- One artifact's marker creation: an empty file at the artifact's path
plus the marker suffix, inside the build directory itself. -/
def createMarkerFor (fs : FS) (a : FPath) : Except FsErr FS :=
  createFileFS fs (markerPath a)

/-- One artifact's move: create the destination's parent directories, then
rename the artifact to the same relative path under the output directory. -/
def moveArtifact (buildDir outputDir : FPath) (fs : FS) (a : FPath) :
    Except FsErr FS :=
  let outputFile := outputDir ++ relUnder buildDir a
  match createDirAll fs outputFile.dropLast with
  | .error e => .error e
  | .ok fs2 => renameFS fs2 a outputFile

/-- The per-artifact body of the loop in `copy_build_files`: first the
marker is created, then the artifact is moved. -/
def copyStep (buildDir outputDir : FPath) (fs : FS) (a : FPath) :
    Except FsErr FS :=
  match createMarkerFor fs a with
  | .error e => .error e
  | .ok fs1 => moveArtifact buildDir outputDir fs1 a

def copyGo (buildDir outputDir : FPath) : List FPath → FS → Except FsErr FS
  | [], fs => .ok fs
  | a :: as, fs =>
    match copyStep buildDir outputDir fs a with
    | .error e => .error e
    | .ok fs2 => copyGo buildDir outputDir as fs2

/-- `copy_build_files(build_dir, output_dir)` from builder.rs. -/
def copy_build_files (fs : FS) (buildDir outputDir : FPath) :
    Except FsErr FS :=
  copyGo buildDir outputDir (find_files fs buildDir has_artifacts) fs

-- =^..^=  clean_build_files  =^..^=

/-- The ancestor-recording loop of `cleanup`, indexed by the length of the
current ancestor (`p.take k` with `k` descending is exactly the parent
chain): walk parents upward, stopping at `top`, at an already recorded
directory, or above the root. -/
def recordAncLen (top p : FPath) : Nat → List FPath → List FPath
  | 0, dirs =>
    if ([] : FPath) = top ∨ dirs.contains ([] : FPath) then dirs
    else [] :: dirs
  | k + 1, dirs =>
    let q := p.take (k + 1)
    if q = top ∨ dirs.contains q then dirs
    else recordAncLen top p k (q :: dirs)

def recordAnc (top : FPath) (p : FPath) (dirs : List FPath) : List FPath :=
  recordAncLen top p p.length dirs

/-- `cleanup(path, top, dirs)` from `clean_build_files`: skip silently when
the path neither exists nor is a symlink, otherwise `remove_file` it and
record its ancestor directories up to `top` as removal candidates. -/
def cleanup (fs : FS) (path top : FPath) (dirs : List FPath) :
    Except FsErr (FS × List FPath) :=
  if lookupFS fs path = none then .ok (fs, dirs)
  else
    match removeFileFS fs path with
    | .error e => .error e
    | .ok fs2 =>
      .ok (fs2, if path = [] then dirs else recordAnc top path.dropLast dirs)

/-- The promoted-artifact path for a marker: strip the marker-directory
prefix, re-append under the output directory, and `set_extension("")`. -/
def computedPath (buildDir od m : FPath) : FPath :=
  setExtensionEmpty (od ++ relUnder buildDir m)

/-- Inner loop of `clean_build_files`: for one marker, clean the computed
path under every output directory. -/
def cleanupOutputs (buildDir : FPath) (m : FPath) :
    List FPath → FS × List FPath → Except FsErr (FS × List FPath)
  | [], st => .ok st
  | od :: ods, st =>
    match cleanup st.1 (computedPath buildDir od m) od st.2 with
    | .error e => .error e
    | .ok st2 => cleanupOutputs buildDir m ods st2

/-- One marker's processing: clean the computed paths, then the marker. -/
def processMarker (buildDir : FPath) (outputDirs : List FPath)
    (st : FS × List FPath) (m : FPath) : Except FsErr (FS × List FPath) :=
  match cleanupOutputs buildDir m outputDirs st with
  | .error e => .error e
  | .ok st2 => cleanup st2.1 m buildDir st2.2

def processMarkers (buildDir : FPath) (outputDirs : List FPath) :
    List FPath → FS × List FPath → Except FsErr (FS × List FPath)
  | [], st => .ok st
  | m :: ms, st =>
    match processMarker buildDir outputDirs st m with
    | .error e => .error e
    | .ok st2 => processMarkers buildDir outputDirs ms st2

/-- `clean_dirs.sort_by(|a, b| b.cmp(a))`: sort candidates descending. -/
def insertDesc (p : FPath) : List FPath → List FPath
  | [] => [p]
  | q :: qs =>
    match pathCompare p q with
    | .lt => q :: insertDesc p qs
    | _ => p :: q :: qs

def sortDesc : List FPath → List FPath
  | [] => []
  | p :: ps => insertDesc p (sortDesc ps)

/-- The final sweep: remove each candidate directory that is empty when its
turn comes. -/
def sweepDirs (fs : FS) : List FPath → FS
  | [] => fs
  | d :: ds => sweepDirs (if isEmptyDir fs d then eraseFS fs d else fs) ds

/-- `clean_build_files(build_dir, output_dirs)` from builder.rs. -/
def clean_build_files (fs : FS) (buildDir : FPath) (outputDirs : List FPath) :
    Except FsErr FS :=
  match processMarkers buildDir outputDirs
      (find_files fs buildDir has_markers) (fs, []) with
  | .error e => .error e
  | .ok (fs2, dirs) => .ok (sweepDirs fs2 (sortDesc dirs))

-- =^..^=  the retrying docker engine  =^..^=

/-- The captured result of one attempt: exit status plus the combined
stdout/stderr stream. -/
structure CmdOutput where
  success : Bool
  stdout : String
deriving DecidableEq, Repr

/-- The error raised by the `docker` wrapper: the snafu context at the
`ensure!` passes exactly the space-joined argument vector. -/
inductive DockerErr where
  | commandStart
  | dockerExecution (args : String)
deriving DecidableEq, Repr

/-- The fragment of regex syntax the four compiled patterns use: literal
characters, `.` (any character but newline), and the multi-line `$`. -/
inductive RTok where
  | lit (c : Char)
  | anyNoNl
  | lineEnd
deriving DecidableEq, Repr

def matchHere : List RTok → List Char → Bool
  | [], _ => true
  | .lit c :: ts, x :: xs => c = x && matchHere ts xs
  | .anyNoNl :: ts, x :: xs => !(x = '\n') && matchHere ts xs
  | .lineEnd :: ts, [] => matchHere ts []
  | .lineEnd :: ts, x :: xs => x = '\n' && matchHere ts (x :: xs)
  | .lit _ :: _, [] => false
  | .anyNoNl :: _, [] => false

def isMatchFrom (ts : List RTok) : List Char → Bool
  | [] => matchHere ts []
  | x :: xs => matchHere ts (x :: xs) || isMatchFrom ts xs

/-- `Regex::is_match`: a match may start at any position. -/
def regexIsMatch (ts : List RTok) (s : String) : Bool :=
  isMatchFrom ts s.toList

def lits (s : String) : List RTok := s.toList.map .lit

/-- The frontend-error pattern from builder.rs lines 47-54. -/
def DOCKER_BUILD_FRONTEND_ERROR : List RTok :=
  lits "failed to solve with frontend dockerfile" ++ [.anyNoNl] ++
  lits "v0: failed to solve with frontend gateway" ++ [.anyNoNl] ++
  lits "v0: frontend grpc server closed unexpectedly"

/-- The dead-record pattern from builder.rs lines 61-69. -/
def DOCKER_BUILD_DEAD_RECORD_ERROR : List RTok :=
  lits "failed to solve with frontend dockerfile" ++ [.anyNoNl] ++
  lits "v0: failed to solve with frontend gateway" ++ [.anyNoNl] ++
  lits "v0: rpc error: code = Unknown desc = failed to build LLB: " ++
  lits "failed to get dead record"

/-- `(?m)unexpected EOF$` from builder.rs line 77. -/
def UNEXPECTED_EOF_ERROR : List RTok :=
  lits "unexpected EOF" ++ [.lineEnd]

/-- The escaped createrepo_c pattern from builder.rs lines 86-91. -/
def CREATEREPO_C_READ_HEADER_ERROR : List RTok :=
  lits "C_CREATEREPOLIB: Warning: read_header: rpmReadPackageFile() error"

/-- `static DOCKER_BUILD_MAX_ATTEMPTS: NonZeroU16 = nonzero!(10u16);`. -/
def DOCKER_BUILD_MAX_ATTEMPTS : Nat := 10

inductive Retry where
  | no
  | yes (attempts : Nat) (messages : List (List RTok))

def joinSpace (args : List String) : String := String.intercalate " " args

/-- The attempt loop of `docker`.  The external process is abstracted as the
oracle `run`, giving each (1-based) attempt's captured output; each
attempt's stream is printed, collected here as the first component.  The
loop is indexed by `remaining = max_attempts - attempt`, the number of
retries still allowed, so the source's guard
`messages.iter().any(..) && attempt < max_attempts` becomes the pattern on
`remaining` plus the same pattern check. -/
def dockerGo (run : Nat → CmdOutput) (args : List String)
    (messages : List (List RTok)) :
    Nat → Nat → List String × Except DockerErr CmdOutput
  | attempt, 0 =>
    let output := run attempt
    if output.success then ([output.stdout], .ok output)
    else ([output.stdout], .error (.dockerExecution (joinSpace args)))
  | attempt, r + 1 =>
    let output := run attempt
    if output.success then ([output.stdout], .ok output)
    else if messages.any (fun m => regexIsMatch m output.stdout) then
      let rest := dockerGo run args messages (attempt + 1) r
      (output.stdout :: rest.1, rest.2)
    else ([output.stdout], .error (.dockerExecution (joinSpace args)))

/-- `docker(args, retry)` from builder.rs: one attempt with no retry
messages unless a retry policy overrides the bound and patterns. -/
def docker (run : Nat → CmdOutput) (args : List String) (retry : Retry) :
    List String × Except DockerErr CmdOutput :=
  match retry with
  | .no => dockerGo run args [] 1 0
  | .yes n ms => dockerGo run args ms 1 (n - 1)

/-- The retry policy of the main build invocation (builder.rs 670-681). -/
def mainBuildRetryMessages : List (List RTok) :=
  [DOCKER_BUILD_FRONTEND_ERROR, DOCKER_BUILD_DEAD_RECORD_ERROR,
   UNEXPECTED_EOF_ERROR, CREATEREPO_C_READ_HEADER_ERROR]

def mainBuildRetry : Retry :=
  .yes DOCKER_BUILD_MAX_ATTEMPTS mainBuildRetryMessages

-- =^..^=  the orchestrator's launch phase  =^..^=

/-- The effectful steps of `DockerBuild::build` from the pre-launch cleanup
onward (builder.rs 642-698), in program order. -/
inductive BuildEvent where
  | cleanOutputs
  | removeImageStale
  | removeBypassStale
  | spawnOutputServer
  | spawnBypassContainer
  | mainBuildRun
  | removeBypassAfter
  | shutdownRuntime
  | removeImageAfter
  | promoteOutputs
deriving DecidableEq, Repr

/-- The orchestrator's event trace, abstracting each external effect to the
event it performs, with the outcomes of the main build and of the
post-build image removal as oracles.  Version check, directory change and
marker-directory creation precede this fragment and are taken as
successful. -/
def buildPhase (cleanBefore mainOk rmImageOk : Bool) :
    List BuildEvent × Bool :=
  let pre :=
    (if cleanBefore then [BuildEvent.cleanOutputs] else []) ++
    [BuildEvent.removeImageStale, BuildEvent.removeBypassStale,
     BuildEvent.spawnOutputServer, BuildEvent.spawnBypassContainer,
     BuildEvent.mainBuildRun, BuildEvent.removeBypassAfter,
     BuildEvent.shutdownRuntime]
  if !mainOk then (pre, false)
  else if !rmImageOk then (pre ++ [BuildEvent.removeImageAfter], false)
  else (pre ++ [BuildEvent.removeImageAfter, BuildEvent.promoteOutputs], true)

-- =^..^=  secrets  =^..^=

/-- `BuildSecret::build_secret` from builder.rs 1104-1117. -/
def build_secret (args : List String) (typ id src : String) : List String :=
  args ++ ["--secret", "type=" ++ typ ++ ",id=" ++ id ++ ",src=" ++ src]

/-- The three credential variables from builder.rs 878-882. -/
def awsCredentialEnvVars : List String :=
  ["AWS_ACCESS_KEY_ID", "AWS_SECRET_ACCESS_KEY", "AWS_SESSION_TOKEN"]

/-- Rust `str::to_lowercase` on the ASCII variable names. -/
def rustToLowercase (s : String) : String :=
  String.mk (s.toList.map Char.toLower)

/-- Rust `str::replace('_', "-")`. -/
def rustReplaceUnderscoreDash (s : String) : String :=
  String.mk (s.toList.map (fun c => if c = '_' then '-' else c))

/-- The secret id: `format!("{}.env", var.to_lowercase().replace('_', "-"))`. -/
def aws_secret_id (var : String) : String :=
  rustReplaceUnderscoreDash (rustToLowercase var) ++ ".env"

/-- The environment-secret arguments contributed by the credential loop of
`secrets_args` (builder.rs 878-885); only the variable name is passed. -/
def aws_secrets_args : List String :=
  awsCredentialEnvVars.foldl
    (fun args var => build_secret args "env" (aws_secret_id var) var) []

-- =^..^=  fixtures for concrete scenarios  =^..^=

/-- Substring test, used to inspect error payloads. -/
def containsStr (sub s : String) : Bool := isMatchFrom (lits sub) s.toList

/-- The output text named by the spec's retry-classification property. -/
def deadRecordClaimOutput : String :=
  "...\nerror: failed to get dead record\nmore text\n"

/-- A captured stream carrying the dead-record signature the compiled
pattern actually requires. -/
def deadRecordSignatureOutput : String :=
  "...\nfailed to solve with frontend dockerfile.v0: " ++
  "failed to solve with frontend gateway.v0: " ++
  "rpc error: code = Unknown desc = failed to build LLB: " ++
  "failed to get dead record\nmore text\n"

/-- An invocation oracle whose first attempt fails with the dead-record
signature and whose second attempt succeeds. -/
def deadRecordRun : Nat → CmdOutput :=
  fun n => if n = 1 then ⟨false, deadRecordSignatureOutput⟩ else ⟨true, "ok"⟩


-- =^..^=  relational vocabulary for the proofs  =^..^=

/-- `g` differs from `fs` only by removed entries (lookup level). -/
def OnlyErased (fs g : FS) : Prop :=
  ∀ p, lookupFS g p = lookupFS fs p ∨ lookupFS g p = none

/-- Every entry of `g` is an entry of `fs`. -/
def SubEntries (g fs : FS) : Prop := ∀ e, e ∈ g → e ∈ fs

/-- A marker directory and output directory after one promotion. -/
def fsC4fix : FS := [(["b"], .dir), (["o"], .dir),
  (["b", "x.buildsys_marker"], .file 0), (["o", "x"], .file 7)]

/-- A marker whose computed artifact path is occupied by a directory. -/
def fsC2fix : FS := [(["b"], .dir), (["o"], .dir),
  (["b", "d.buildsys_marker"], .file 0), (["o", "d"], .dir)]

/-- Nested otherwise-empty directories holding one deep marker. -/
def fsC3fix : FS := [(["m"], .dir), (["o"], .dir), (["m", "a"], .dir),
  (["m", "a", "b"], .dir), (["m", "a", "b", "c"], .dir),
  (["m", "a", "b", "c", "f.buildsys_marker"], .file 0)]

/-- The same tree with an extra file keeping directory `a` non-empty. -/
def fsC3xfix : FS := fsC3fix ++ [(["m", "a", "keep"], .file 1)]

/-- A build directory holding one artifact to promote. -/
def fsC5fix : FS := [(["b"], .dir), (["o"], .dir), (["b", "pkg"], .dir),
  (["b", "pkg", "foo.rpm"], .file 3)]

/-- A marker directory whose artifact was already removed. -/
def fsC10fix : FS := [(["b"], .dir), (["o"], .dir),
  (["b", "y.buildsys_marker"], .file 0)]

/-- A slot `File::create` can claim: absent, or an existing regular file. -/
def okMarkerSlotb : Option FType → Bool
  | none => true
  | some (.file _) => true
  | some .dir => false
  | some .symlink => false

/-- A slot `create_dir_all` can pass through: absent or a directory. -/
def okDirSlotb : Option FType → Bool
  | none => true
  | some .dir => true
  | some _ => false

/-- Every proper nonempty prefix of the destination's parent is absent or a
directory, so `create_dir_all` succeeds. -/
def chainOkb (fs : FS) (X : FPath) : Bool :=
  (List.range (X.dropLast.length + 1)).all (fun n =>
    decide (n = 0) || okDirSlotb (lookupFS fs (X.dropLast.take n)))

/-- The sanity conditions under which a promotion pass runs: a well-formed
tree, a build directory and an output directory neither of which contains
the other, and for every artifact a claimable marker slot, a creatable
destination parent chain, and no directory squatting on the destination. -/
def promoteHypsb (fs : FS) (b o : FPath) : Bool :=
  wfb fs && !(decide (b <+: o)) && !(decide (o <+: b)) &&
  (find_files fs b has_artifacts).all (fun a =>
    okMarkerSlotb (lookupFS fs (markerPath a)) &&
    chainOkb fs (o ++ relUnder b a) &&
    !(lookupFS fs (o ++ relUnder b a) = some FType.dir))

/-- The state reached after promoting the artifacts in `done`: each has its
zero-length marker, its original slot is empty, its node sits at the same
relative path under the output directory with the destination's parent
directories in place, and every position not touched by the promotion is
unchanged. -/
def PromoteInv (fs : FS) (b o : FPath) (done : List FPath) (g : FS) :
    Prop :=
  keysNodupb g = true ∧
  (∀ a ∈ done, lookupFS g (markerPath a) = some (.file 0)) ∧
  (∀ a ∈ done, lookupFS g a = none) ∧
  (∀ a ∈ done, lookupFS g (o ++ relUnder b a) = lookupFS fs a) ∧
  (∀ a ∈ done, ∀ n, 0 < n → n ≤ (o ++ relUnder b a).dropLast.length →
    lookupFS g ((o ++ relUnder b a).dropLast.take n) = some .dir) ∧
  (∀ p, (∀ a ∈ done, p ≠ markerPath a ∧ p ≠ a ∧ p ≠ o ++ relUnder b a ∧
      ∀ n, 0 < n → n ≤ (o ++ relUnder b a).dropLast.length →
        p ≠ (o ++ relUnder b a).dropLast.take n) →
    lookupFS g p = lookupFS fs p) ∧
  (∀ p, lookupFS fs p = some .dir → lookupFS g p = some .dir)

/-- The parent-closure property of a candidate list, toward `top`. -/
def UpClosedTop (top : FPath) (D : List FPath) : Prop :=
  ∀ q ∈ D, top <+: q → q ≠ top → (q.dropLast = top ∨ q.dropLast ∈ D)

/-- A destination-parent position of some artifact's promotion target,
strictly below the output directory. -/
def chainPosOf (b o : FPath) (arts : List FPath) (q : FPath) : Prop :=
  ∃ a ∈ arts, ∃ n, o.length < n ∧
    n ≤ (o ++ relUnder b a).dropLast.length ∧
    q = (o ++ relUnder b a).dropLast.take n

/-- The state of the marker-processing loop of `clean_build_files` run
against the post-promotion tree `g`: the artifacts in `A` have had their
markers and promoted copies removed, nothing else changed, and the
candidate list holds the recorded parent chains. -/
def CInv (g : FS) (b o : FPath) (arts A : List FPath) (gc : FS)
    (D : List FPath) : Prop :=
  keysNodupb gc = true ∧
  (∀ p, (∀ a ∈ A, p ≠ markerPath a ∧ p ≠ o ++ relUnder b a) →
    lookupFS gc p = lookupFS g p) ∧
  (∀ a ∈ A, lookupFS gc (markerPath a) = none ∧
    lookupFS gc (o ++ relUnder b a) = none) ∧
  UpClosedTop o D ∧
  (∀ a ∈ A, ∀ n, o.length < n → n ≤ (o ++ relUnder b a).dropLast.length →
    (o ++ relUnder b a).dropLast.take n ∈ D) ∧
  (∀ q ∈ D, ¬(q <+: o) ∧ (o <+: q → chainPosOf b o arts q))

-- =^..^=   =^..^=   =^..^=   THEOREMS   =^..^=   =^..^=   =^..^=

-- the retrying engine

theorem dockerGo_success (run : Nat → CmdOutput) (args : List String)
    (ms : List (List RTok)) (att r : Nat) (h : (run att).success = true) :
    dockerGo run args ms att r = ([(run att).stdout], .ok (run att)) := by
  cases r <;> simp [dockerGo, h]

theorem dockerGo_retry (run : Nat → CmdOutput) (args : List String)
    (ms : List (List RTok)) (att r : Nat) (h : (run att).success = false)
    (hm : ms.any (fun m => regexIsMatch m (run att).stdout) = true) :
    dockerGo run args ms att (r + 1) =
      ((run att).stdout :: (dockerGo run args ms (att + 1) r).1,
       (dockerGo run args ms (att + 1) r).2) := by
  simp [dockerGo, h, hm]

theorem dockerGo_stop (run : Nat → CmdOutput) (args : List String)
    (ms : List (List RTok)) (att r : Nat) (h : (run att).success = false)
    (hm : ¬(ms.any (fun m => regexIsMatch m (run att).stdout) = true ∧ 0 < r)) :
    dockerGo run args ms att r =
      ([(run att).stdout], .error (.dockerExecution (joinSpace args))) := by
  cases r with
  | zero => simp [dockerGo, h]
  | succ n =>
    have hx : ms.any (fun m => regexIsMatch m (run att).stdout) = false := by
      cases hy : ms.any (fun m => regexIsMatch m (run att).stdout)
      · rfl
      · exact absurd ⟨hy, Nat.succ_pos n⟩ hm
    simp [dockerGo, h, hx]

/-- C6 (corrected): on zero exit status the captured output is returned at
once; on non-zero exit the invocation is re-run from scratch iff the
captured stream matches a configured pattern and retries remain (ten
attempts for the main build); otherwise the loop fails with the exact
space-joined argument vector attached to the error, the captured output
having been printed (the last log entry), not attached to the error. -/
theorem claim_C6 (run : Nat → CmdOutput) (args : List String)
    (ms : List (List RTok)) (att r : Nat) :
    ((run att).success = true →
      dockerGo run args ms att r = ([(run att).stdout], .ok (run att))) ∧
    ((run att).success = false →
      (ms.any (fun m => regexIsMatch m (run att).stdout) = true ∧ 0 < r →
        dockerGo run args ms att r =
          ((run att).stdout :: (dockerGo run args ms (att + 1) (r - 1)).1,
           (dockerGo run args ms (att + 1) (r - 1)).2)) ∧
      (¬(ms.any (fun m => regexIsMatch m (run att).stdout) = true ∧ 0 < r) →
        dockerGo run args ms att r =
          ([(run att).stdout], .error (.dockerExecution (joinSpace args))))) ∧
    docker run args (Retry.yes DOCKER_BUILD_MAX_ATTEMPTS ms) =
      dockerGo run args ms 1 (DOCKER_BUILD_MAX_ATTEMPTS - 1) ∧
    docker run args Retry.no = dockerGo run args [] 1 0 ∧
    mainBuildRetry = Retry.yes 10 mainBuildRetryMessages ∧
    DOCKER_BUILD_MAX_ATTEMPTS = 10 := by
  refine ⟨fun h => dockerGo_success run args ms att r h,
    fun h => ⟨fun hc => ?_, fun hn => dockerGo_stop run args ms att r h hn⟩,
    rfl, rfl, rfl, rfl⟩
  obtain ⟨hm, hr⟩ := hc
  obtain ⟨s, rfl⟩ : ∃ s, r = s + 1 :=
    ⟨r - 1, (Nat.succ_pred_eq_of_pos hr).symm⟩
  simpa using dockerGo_retry run args ms att s h hm

theorem claim_C6_witness :
    ((fun _ => CmdOutput.mk true "ok") 1).success = true ∧
    dockerGo (fun _ => CmdOutput.mk true "ok") ["build"]
      mainBuildRetryMessages 1 9 = (["ok"], .ok (CmdOutput.mk true "ok")) :=
  ⟨rfl, (claim_C6 (fun _ => CmdOutput.mk true "ok") ["build"]
    mainBuildRetryMessages 1 9).1 rfl⟩

/-- C6 counterexample: a failed non-retryable invocation produces an error
that carries only the space-joined argument vector; the captured output
"boom" is printed (the log) but is no part of the error payload. -/
theorem claim_C6_counterexample :
    docker (fun _ => CmdOutput.mk false "boom") ["build", "x"]
      mainBuildRetry =
      (["boom"], .error (.dockerExecution "build x")) ∧
    containsStr "boom" "build x" = false :=
  ⟨rfl, rfl⟩

/-- C7 (corrected): an output carrying the full dead-record signature the
compiled pattern requires triggers a retry (two log entries: the failed
attempt was re-run), while a failed output matching no configured pattern
fails after exactly one attempt. -/
theorem claim_C7 :
    regexIsMatch DOCKER_BUILD_DEAD_RECORD_ERROR deadRecordSignatureOutput
      = true ∧
    docker deadRecordRun ["build"] mainBuildRetry =
      ([deadRecordSignatureOutput, "ok"], .ok (CmdOutput.mk true "ok")) ∧
    (∀ (run : Nat → CmdOutput) (args : List String),
      (run 1).success = false →
      mainBuildRetryMessages.any (fun m => regexIsMatch m (run 1).stdout)
        = false →
      docker run args mainBuildRetry =
        ([(run 1).stdout], .error (.dockerExecution (joinSpace args)))) := by
  refine ⟨rfl, rfl, fun run args h1 h2 => ?_⟩
  show dockerGo run args mainBuildRetryMessages 1 9 = _
  exact dockerGo_stop run args mainBuildRetryMessages 1 9 h1
    (by simp [h2])

theorem claim_C7_witness :
    ((fun _ => CmdOutput.mk false "nomatch") 1).success = false ∧
    mainBuildRetryMessages.any
      (fun m => regexIsMatch m ((fun _ => CmdOutput.mk false "nomatch") 1).stdout)
      = false ∧
    docker (fun _ => CmdOutput.mk false "nomatch") ["run", "z"]
      mainBuildRetry =
      (["nomatch"], .error (.dockerExecution "run z")) :=
  ⟨rfl, by decide,
    claim_C7.2.2 (fun _ => CmdOutput.mk false "nomatch") ["run", "z"] rfl
      (by decide)⟩

/-- C7 counterexample: the exact output text named by the claim matches no
configured pattern, so the invocation is not retried: it fails after
exactly one attempt (a single log entry). -/
theorem claim_C7_counterexample :
    mainBuildRetryMessages.any
      (fun m => regexIsMatch m deadRecordClaimOutput) = false ∧
    docker (fun _ => CmdOutput.mk false deadRecordClaimOutput) ["build"]
      mainBuildRetry =
      ([deadRecordClaimOutput], .error (.dockerExecution "build")) :=
  ⟨rfl, rfl⟩

-- the orchestrator's failure path

/-- C8 (corrected): when the main build invocation fails, the orchestrator
removes the helper container and shuts down the runtime backing the
auxiliary tasks, does not promote outputs, and propagates the failure; the
ephemeral image is not removed on this path — its removal happens only
after a successful build (stale images are removed proactively before the
next launch). -/
theorem claim_C8 : ∀ cleanBefore rmImageOk : Bool,
    (buildPhase cleanBefore false rmImageOk).2 = false ∧
    BuildEvent.removeBypassAfter ∈ (buildPhase cleanBefore false rmImageOk).1 ∧
    BuildEvent.shutdownRuntime ∈ (buildPhase cleanBefore false rmImageOk).1 ∧
    BuildEvent.promoteOutputs ∉ (buildPhase cleanBefore false rmImageOk).1 ∧
    BuildEvent.removeImageAfter ∉ (buildPhase cleanBefore false rmImageOk).1 ∧
    BuildEvent.removeImageStale ∈ (buildPhase cleanBefore false rmImageOk).1 := by
  decide

/-- C8 counterexample: on the failure path the ephemeral image removal is
never attempted — `build_result?` returns before `docker(&rm_image, ..)`. -/
theorem claim_C8_counterexample :
    BuildEvent.removeImageAfter ∉ (buildPhase true false true).1 := by
  decide

-- secrets

/-- C9 (corrected): each credential variable contributes exactly one
environment-sourced secret passing only the variable name as the source;
its identifier is the lower-cased, dash-joined form of the name with
".env" appended (not the bare dash-joined form). -/
theorem claim_C9 :
    aws_secrets_args =
      ["--secret", "type=env,id=aws-access-key-id.env,src=AWS_ACCESS_KEY_ID",
       "--secret",
       "type=env,id=aws-secret-access-key.env,src=AWS_SECRET_ACCESS_KEY",
       "--secret", "type=env,id=aws-session-token.env,src=AWS_SESSION_TOKEN"] ∧
    ∀ var ∈ awsCredentialEnvVars,
      aws_secret_id var =
        rustReplaceUnderscoreDash (rustToLowercase var) ++ ".env" := by
  exact ⟨rfl, by decide⟩

/-- C9 counterexample: the identifier for AWS_ACCESS_KEY_ID is
"aws-access-key-id.env", not the bare "aws-access-key-id" the claim
states, and no secret argument with the bare identifier is contributed. -/
theorem claim_C9_counterexample :
    aws_secret_id "AWS_ACCESS_KEY_ID" ≠ "aws-access-key-id" ∧
    "type=env,id=aws-access-key-id,src=AWS_ACCESS_KEY_ID" ∉
      aws_secrets_args := by
  decide


-- basic association-list lemmas

@[simp] theorem lookupFS_nil (q : FPath) : lookupFS [] q = none := rfl

@[simp] theorem lookupFS_cons (e : FPath × FType) (es : FS) (q : FPath) :
    lookupFS (e :: es) q = if e.1 = q then some e.2 else lookupFS es q := rfl

@[simp] theorem eraseFS_nil (p : FPath) : eraseFS [] p = [] := rfl

@[simp] theorem eraseFS_cons (e : FPath × FType) (es : FS) (p : FPath) :
    eraseFS (e :: es) p = if e.1 = p then eraseFS es p else e :: eraseFS es p :=
  rfl

theorem lookupFS_erase (fs : FS) (p q : FPath) :
    lookupFS (eraseFS fs p) q = if q = p then none else lookupFS fs q := by
  induction fs with
  | nil => simp
  | cons e es ih =>
    rw [eraseFS_cons]
    by_cases h1 : e.1 = p <;> by_cases h3 : e.1 = q <;>
      by_cases h2 : q = p <;> simp_all

theorem lookupFS_erase_self (fs : FS) (p : FPath) :
    lookupFS (eraseFS fs p) p = none := by
  simp [lookupFS_erase]

theorem lookupFS_erase_ne (fs : FS) (p q : FPath) (h : q ≠ p) :
    lookupFS (eraseFS fs p) q = lookupFS fs q := by
  simp [lookupFS_erase, h]

theorem lookupFS_insert (fs : FS) (p : FPath) (t : FType) (q : FPath) :
    lookupFS (insertFS fs p t) q = if q = p then some t else lookupFS fs q := by
  simp only [insertFS, lookupFS_cons]
  by_cases h : q = p
  · simp [h]
  · rw [if_neg (fun hh : p = q => h hh.symm), if_neg h, lookupFS_erase,
      if_neg h]

theorem lookupFS_insert_self (fs : FS) (p : FPath) (t : FType) :
    lookupFS (insertFS fs p t) p = some t := by
  simp [lookupFS_insert]

theorem lookupFS_insert_ne (fs : FS) (p : FPath) (t : FType) (q : FPath)
    (h : q ≠ p) : lookupFS (insertFS fs p t) q = lookupFS fs q := by
  simp [lookupFS_insert, h]

theorem mem_eraseFS {fs : FS} {p : FPath} {e : FPath × FType} :
    e ∈ eraseFS fs p ↔ e ∈ fs ∧ e.1 ≠ p := by
  induction fs with
  | nil => simp
  | cons f es ih =>
    rw [eraseFS_cons]
    by_cases h : f.1 = p
    · simp only [if_pos h, ih, List.mem_cons]
      constructor
      · exact fun ⟨h1, h2⟩ => ⟨Or.inr h1, h2⟩
      · rintro ⟨rfl | h1, h2⟩
        · exact absurd h h2
        · exact ⟨h1, h2⟩
    · simp only [if_neg h, List.mem_cons, ih]
      constructor
      · rintro (rfl | ⟨h1, h2⟩)
        · exact ⟨Or.inl rfl, h⟩
        · exact ⟨Or.inr h1, h2⟩
      · rintro ⟨rfl | h1, h2⟩
        · exact Or.inl rfl
        · exact Or.inr ⟨h1, h2⟩

theorem lookupFS_eq_none_iff {fs : FS} {p : FPath} :
    lookupFS fs p = none ↔ ∀ t, (p, t) ∉ fs := by
  induction fs with
  | nil => simp
  | cons e es ih =>
    by_cases h : e.1 = p
    · simp only [lookupFS_cons, if_pos h]
      constructor
      · intro hx; cases hx
      · intro hx
        exact absurd (show (p, e.2) ∈ e :: es from by
          rw [show (p, e.2) = e from Prod.ext h.symm rfl]
          exact List.mem_cons_self e es) (hx e.2)
    · simp only [lookupFS_cons, if_neg h, ih, List.mem_cons]
      constructor
      · intro hx t hc
        rcases hc with hc | hc
        · exact h (congrArg Prod.fst hc.symm)
        · exact hx t hc
      · intro hx t hc
        exact hx t (Or.inr hc)

theorem lookupFS_mem {fs : FS} {p : FPath} {t : FType}
    (h : lookupFS fs p = some t) : (p, t) ∈ fs := by
  induction fs with
  | nil => simp at h
  | cons e es ih =>
    by_cases h1 : e.1 = p
    · simp only [lookupFS_cons, if_pos h1, Option.some_inj] at h
      rw [show (p, t) = e from Prod.ext h1.symm h.symm]
      exact List.mem_cons_self e es
    · simp only [lookupFS_cons, if_neg h1] at h
      exact List.mem_cons_of_mem _ (ih h)

theorem keysNodupb_iff {fs : FS} :
    keysNodupb fs = true ↔ (fs.map Prod.fst).Nodup := by
  induction fs with
  | nil => simp [keysNodupb]
  | cons e es ih =>
    simp only [keysNodupb, List.map_cons, List.nodup_cons, Bool.and_eq_true,
      Bool.not_eq_true', ih, List.mem_map]
    constructor
    · rintro ⟨h1, h2⟩
      refine ⟨?_, h2⟩
      rintro ⟨e2, he2, hfst⟩
      have hx : (es.any fun e2 => decide (e2.1 = e.1)) = true :=
        List.any_eq_true.mpr ⟨e2, he2, decide_eq_true hfst⟩
      rw [h1] at hx
      exact Bool.noConfusion hx
    · rintro ⟨h1, h2⟩
      refine ⟨?_, h2⟩
      cases hx : es.any fun e2 => decide (e2.1 = e.1)
      · rfl
      · obtain ⟨e2, he2, heq⟩ := List.any_eq_true.mp hx
        exact absurd ⟨e2, he2, of_decide_eq_true heq⟩ h1

theorem mem_lookupFS {fs : FS} (hnd : keysNodupb fs = true) {p : FPath}
    {t : FType} (h : (p, t) ∈ fs) : lookupFS fs p = some t := by
  induction fs with
  | nil => cases h
  | cons e es ih =>
    simp only [keysNodupb, Bool.and_eq_true, Bool.not_eq_true'] at hnd
    rcases List.mem_cons.mp h with h1 | h1
    · rw [← h1]
      simp
    · have hne : e.1 ≠ p := by
        intro hx
        have hy : es.any (fun e2 => decide (e2.1 = e.1)) = true :=
          List.any_eq_true.mpr ⟨(p, t), h1, by simp [hx]⟩
        rw [hy] at hnd
        exact absurd hnd.1 (by simp)
      simp only [lookupFS_cons, if_neg hne]
      exact ih hnd.2 h1

theorem keysNodupb_erase {fs : FS} (hnd : keysNodupb fs = true) (p : FPath) :
    keysNodupb (eraseFS fs p) = true := by
  induction fs with
  | nil => simp [keysNodupb]
  | cons e es ih =>
    simp only [keysNodupb, Bool.and_eq_true, Bool.not_eq_true'] at hnd
    rw [eraseFS_cons]
    by_cases h : e.1 = p
    · rw [if_pos h]
      exact ih hnd.2
    · rw [if_neg h]
      simp only [keysNodupb, Bool.and_eq_true, Bool.not_eq_true']
      refine ⟨?_, ih hnd.2⟩
      cases hx : (eraseFS es p).any fun e2 => decide (e2.1 = e.1)
      · rfl
      · obtain ⟨e2, he2, heq⟩ := List.any_eq_true.mp hx
        have hm := (mem_eraseFS.mp he2).1
        have hy : es.any (fun e2 => decide (e2.1 = e.1)) = true :=
          List.any_eq_true.mpr ⟨e2, hm, heq⟩
        rw [hy] at hnd
        exact absurd hnd.1 (by simp)

theorem keysNodupb_insert {fs : FS} (hnd : keysNodupb fs = true) (p : FPath)
    (t : FType) : keysNodupb (insertFS fs p t) = true := by
  simp only [insertFS, keysNodupb, Bool.and_eq_true, Bool.not_eq_true']
  refine ⟨?_, keysNodupb_erase hnd p⟩
  cases hx : (eraseFS fs p).any fun e2 => decide (e2.1 = p)
  · rfl
  · obtain ⟨e2, he2, heq⟩ := List.any_eq_true.mp hx
    exact absurd (of_decide_eq_true heq) (mem_eraseFS.mp he2).2

-- path, prefix, and name lemmas

theorem mem_ancestorsBetween {dir p q : FPath} :
    q ∈ ancestorsBetween dir p ↔
      ∃ n, dir.length < n ∧ n < p.length ∧ q = p.take n := by
  simp only [ancestorsBetween, List.mem_map, List.mem_filter, List.mem_range,
    decide_eq_true_eq]
  constructor
  · rintro ⟨n, ⟨hn, hd⟩, rfl⟩
    exact ⟨n, hd, hn, rfl⟩
  · rintro ⟨n, hd, hn, rfl⟩
    exact ⟨n, ⟨hn, hd⟩, rfl⟩

theorem mem_ancestorsBetween_iff {dir p q : FPath} :
    q ∈ ancestorsBetween dir p ↔
      (q <+: p ∧ dir.length < q.length ∧ q.length < p.length) := by
  rw [mem_ancestorsBetween]
  constructor
  · rintro ⟨n, hd, hn, rfl⟩
    have hl : (p.take n).length = n := by
      rw [List.length_take]
      omega
    exact ⟨List.take_prefix n p, by omega, by omega⟩
  · rintro ⟨hq, hd, hn⟩
    exact ⟨q.length, hd, hn, List.prefix_iff_eq_take.mp hq⟩

theorem wfb_nodup {fs : FS} (h : wfb fs = true) : keysNodupb fs = true := by
  simp only [wfb, Bool.and_eq_true] at h
  exact h.1

theorem wfb_anc {fs : FS} (h : wfb fs = true) {p : FPath} {t : FType}
    (hm : (p, t) ∈ fs) {q : FPath} (hq : q <+: p) (h0 : q ≠ [])
    (hlt : q.length < p.length) : lookupFS fs q = some .dir := by
  simp only [wfb, Bool.and_eq_true, List.all_eq_true] at h
  have h2 := h.2 (p, t) hm
  simp only [Bool.and_eq_true, List.all_eq_true] at h2
  have hqm : q ∈ ancestorsBetween [] p :=
    mem_ancestorsBetween_iff.mpr
      ⟨hq, by simp [List.length_pos, h0], hlt⟩
  exact of_decide_eq_true (h2.2 q hqm)

theorem wfb_comp {fs : FS} (h : wfb fs = true) {p : FPath} {t : FType}
    (hm : (p, t) ∈ fs) {c : String} (hc : c ∈ p) : c ≠ "" := by
  simp only [wfb, Bool.and_eq_true, List.all_eq_true] at h
  have h2 := (h.2 (p, t) hm)
  simp only [Bool.and_eq_true, List.all_eq_true] at h2
  have := h2.1 c hc
  simpa using this

theorem lastComponent_concat (xs : List String) (x : String) :
    lastComponent (xs ++ [x]) = x := by
  induction xs with
  | nil => rfl
  | cons a as ih =>
    cases as with
    | nil => rfl
    | cons b bs => exact ih

theorem exists_concat_of_ne_nil {p : FPath} (h : p ≠ []) :
    ∃ xs x, p = xs ++ [x] :=
  ⟨p.dropLast, p.getLast h, (List.dropLast_append_getLast h).symm⟩

theorem markerPath_concat (xs : List String) (x : String) :
    markerPath (xs ++ [x]) = xs ++ [x ++ MARKER_EXTENSION] := by
  induction xs with
  | nil => rfl
  | cons a as ih =>
    cases as with
    | nil => rfl
    | cons b bs =>
      show a :: markerPath ((b :: bs) ++ [x]) = _
      rw [ih]
      rfl

theorem strToList_append (s t : String) :
    (s ++ t).toList = s.toList ++ t.toList := by
  cases s
  cases t
  rfl

theorem strMk_toList (s : String) : String.mk s.toList = s := by
  cases s
  rfl

theorem strAppend_right_cancel {x y s : String} (h : x ++ s = y ++ s) :
    x = y := by
  have h2 : x.toList ++ s.toList = y.toList ++ s.toList := by
    rw [← strToList_append, ← strToList_append, h]
  have h3 : x.toList = y.toList := List.append_cancel_right h2
  rw [← strMk_toList x, ← strMk_toList y, h3]

theorem strAppend_ne_self {x s : String} (h : s ≠ "") : x ++ s ≠ x := by
  intro hx
  have h2 : (x ++ s).length = x.length := by rw [hx]
  rw [String.length_append] at h2
  have h3 : s.length = 0 := by omega
  apply h
  have h5 : s.toList.length = 0 := h3
  have h4 : s.toList = [] := List.length_eq_zero.mp h5
  rw [← strMk_toList s, h4]

theorem markerExt_ne_empty : MARKER_EXTENSION ≠ "" := by decide

theorem markerPath_length {p : FPath} (h : p ≠ []) :
    (markerPath p).length = p.length := by
  obtain ⟨xs, x, rfl⟩ := exists_concat_of_ne_nil h
  rw [markerPath_concat]
  simp

theorem markerPath_dropLast {p : FPath} (h : p ≠ []) :
    (markerPath p).dropLast = p.dropLast := by
  obtain ⟨xs, x, rfl⟩ := exists_concat_of_ne_nil h
  rw [markerPath_concat, List.dropLast_concat, List.dropLast_concat]

theorem markerPath_ne_self (p : FPath) : markerPath p ≠ p := by
  by_cases h : p = []
  · subst h
    intro hx
    cases hx
  · obtain ⟨xs, x, rfl⟩ := exists_concat_of_ne_nil h
    rw [markerPath_concat]
    intro hx
    have h2 : x ++ MARKER_EXTENSION = x := by
      have := List.append_cancel_left hx
      injection this
    exact strAppend_ne_self markerExt_ne_empty h2

theorem markerPath_inj {p q : FPath} (hp : p ≠ []) (hq : q ≠ [])
    (h : markerPath p = markerPath q) : p = q := by
  obtain ⟨xs, x, rfl⟩ := exists_concat_of_ne_nil hp
  obtain ⟨ys, y, rfl⟩ := exists_concat_of_ne_nil hq
  rw [markerPath_concat, markerPath_concat] at h
  have hl : xs.length = ys.length := by
    have := congrArg List.length h
    simpa using this
  obtain ⟨h1, h2⟩ := List.append_inj h (by simpa using hl)
  have h3 : x ++ MARKER_EXTENSION = y ++ MARKER_EXTENSION := by injection h2
  rw [h1, strAppend_right_cancel h3]

theorem lastComponent_markerPath {p : FPath} (h : p ≠ []) :
    lastComponent (markerPath p) = lastComponent p ++ MARKER_EXTENSION := by
  obtain ⟨xs, x, rfl⟩ := exists_concat_of_ne_nil h
  rw [markerPath_concat, lastComponent_concat, lastComponent_concat]

theorem endsWithMarker_append (x : String) :
    endsWithMarker (x ++ MARKER_EXTENSION) = true := by
  have h : MARKER_EXTENSION.toList <:+ (x ++ MARKER_EXTENSION).toList := by
    rw [strToList_append]
    exact List.suffix_append _ _
  simp only [endsWithMarker]
  exact List.isSuffixOf_iff_suffix.mpr h

theorem endsWithMarker_markerPath {p : FPath} (h : p ≠ []) :
    endsWithMarker (lastComponent (markerPath p)) = true := by
  rw [lastComponent_markerPath h]
  exact endsWithMarker_append _

theorem ne_markerPath_of_not_marker {q a : FPath} (ha : a ≠ [])
    (h : endsWithMarker (lastComponent q) = false) : q ≠ markerPath a := by
  intro hx
  rw [hx, endsWithMarker_markerPath ha] at h
  cases h

theorem markerPath_take {p : FPath} (h : p ≠ []) {n : Nat}
    (hn : n < p.length) : (markerPath p).take n = p.take n := by
  obtain ⟨xs, x, rfl⟩ := exists_concat_of_ne_nil h
  have hx : n ≤ xs.length := by
    have hy : (xs ++ [x]).length = xs.length + 1 := by simp
    omega
  rw [markerPath_concat, List.take_append_of_le_length hx,
    List.take_append_of_le_length hx]

theorem markerPath_append_left (xs : List String) {ys : List String}
    (hy : ys ≠ []) : markerPath (xs ++ ys) = xs ++ markerPath ys := by
  induction xs with
  | nil => rfl
  | cons a as ih =>
    obtain ⟨h, t, hht⟩ : ∃ h t, as ++ ys = h :: t := by
      cases hx : as ++ ys with
      | nil =>
        exact absurd (List.append_eq_nil.mp hx).2 hy
      | cons h t => exact ⟨h, t, rfl⟩
    show markerPath (a :: (as ++ ys)) = _
    rw [hht]
    show a :: markerPath (h :: t) = _
    rw [← hht, ih]
    rfl

theorem relUnder_append (b r : FPath) : relUnder b (b ++ r) = r :=
  List.drop_left b r

theorem append_relUnder {b p : FPath} (h : b <+: p) :
    b ++ relUnder b p = p := by
  obtain ⟨r, rfl⟩ := h
  rw [relUnder_append]

theorem prefix_dropLast_of_lt {b p : FPath} (h : b <+: p)
    (hl : b.length < p.length) : b <+: p.dropLast := by
  obtain ⟨r, rfl⟩ := h
  have hr : r ≠ [] := by
    intro hx
    subst hx
    simp at hl
  rw [List.dropLast_append_of_ne_nil _ hr]
  exact List.prefix_append _ _

theorem strictUnderb_iff {dir p : FPath} :
    strictUnderb dir p = true ↔ (dir <+: p ∧ dir.length < p.length) := by
  simp [strictUnderb]

-- set_extension lemmas

theorem stripLastExtRev_no_dot {l : List Char} (h : '.' ∉ l)
    (r : List Char) : stripLastExtRev (l ++ '.' :: r) = some r := by
  induction l with
  | nil => simp [stripLastExtRev]
  | cons c cs ih =>
    have hc : ¬(c = '.') := fun hx => h (hx ▸ List.mem_cons_self _ _)
    simp only [List.cons_append, stripLastExtRev, if_neg hc]
    exact ih (fun hx => h (List.mem_cons_of_mem _ hx))

theorem marker_toList :
    MARKER_EXTENSION.toList = '.' :: "buildsys_marker".toList := rfl

theorem setExtEmptyName_marker {x : String} (hx : x ≠ "") :
    setExtEmptyName (x ++ MARKER_EXTENSION) = x := by
  have h1 : (x ++ MARKER_EXTENSION).toList.reverse
      = "buildsys_marker".toList.reverse ++ '.' :: x.toList.reverse := by
    rw [strToList_append, marker_toList, List.reverse_append,
      List.reverse_cons, List.append_assoc, List.singleton_append]
  have hdot : '.' ∉ "buildsys_marker".toList.reverse := by decide
  have hrev : x.toList.reverse ≠ [] := by
    intro hz
    apply hx
    have hz2 : x.toList = [] := by
      have := congrArg List.reverse hz
      simpa using this
    rw [← strMk_toList x, hz2]
  unfold setExtEmptyName
  rw [h1, stripLastExtRev_no_dot hdot]
  show (if x.toList.reverse = [] then x ++ MARKER_EXTENSION
    else String.mk x.toList.reverse.reverse) = x
  rw [if_neg hrev, List.reverse_reverse, strMk_toList]

theorem setExtensionEmpty_concat (xs : List String) (x : String) :
    setExtensionEmpty (xs ++ [x]) = xs ++ [setExtEmptyName x] := by
  induction xs with
  | nil => rfl
  | cons a as ih =>
    cases as with
    | nil => rfl
    | cons b bs =>
      show a :: setExtensionEmpty ((b :: bs) ++ [x]) = _
      rw [ih]
      rfl

theorem markerPath_ne_nil (p : FPath) : markerPath p ≠ [] := by
  cases p with
  | nil => simp [markerPath]
  | cons a as => cases as <;> simp [markerPath]

theorem lastComponent_append (xs : List String) {ys : List String}
    (hy : ys ≠ []) : lastComponent (xs ++ ys) = lastComponent ys := by
  obtain ⟨zs, z, rfl⟩ := exists_concat_of_ne_nil hy
  rw [← List.append_assoc, lastComponent_concat, lastComponent_concat]

theorem setExtensionEmpty_markerPath {p : FPath} (hp : p ≠ [])
    (hl : lastComponent p ≠ "") : setExtensionEmpty (markerPath p) = p := by
  obtain ⟨xs, x, rfl⟩ := exists_concat_of_ne_nil hp
  rw [lastComponent_concat] at hl
  rw [markerPath_concat, setExtensionEmpty_concat, setExtEmptyName_marker hl]

theorem setExtensionEmpty_append_left (xs : List String) {ys : List String}
    (hy : ys ≠ []) :
    setExtensionEmpty (xs ++ ys) = xs ++ setExtensionEmpty ys := by
  induction xs with
  | nil => rfl
  | cons a as ih =>
    obtain ⟨h, t, hht⟩ : ∃ h t, as ++ ys = h :: t := by
      cases hx : as ++ ys with
      | nil => exact absurd (List.append_eq_nil.mp hx).2 hy
      | cons h t => exact ⟨h, t, rfl⟩
    show setExtensionEmpty (a :: (as ++ ys)) = _
    rw [hht]
    show a :: setExtensionEmpty (h :: t) = _
    rw [← hht, ih]
    rfl

/-- For a marker created from artifact `a` strictly below `b`, the computed
path under `od` is `od` plus the artifact's relative path: `set_extension`
strips exactly the marker suffix. -/
theorem computedPath_markerPath {b a : FPath} (od : FPath) (hba : b <+: a)
    (hlen : b.length < a.length) (hl : lastComponent a ≠ "") :
    computedPath b od (markerPath a) = od ++ relUnder b a := by
  obtain ⟨rel, rfl⟩ := hba
  have hrel : rel ≠ [] := by
    intro hx
    subst hx
    simp at hlen
  have hlast : lastComponent rel ≠ "" := by
    rw [lastComponent_append b hrel] at hl
    exact hl
  rw [computedPath, markerPath_append_left b hrel, relUnder_append,
    relUnder_append,
    setExtensionEmpty_append_left od (markerPath_ne_nil rel),
    setExtensionEmpty_markerPath hrel hlast]

-- find_files characterization

theorem visitedBy_iff {fs : FS} {dir : FPath} {pred : FPath → FType → Bool}
    {p : FPath} :
    visitedBy fs dir pred p = true ↔
      dir <+: p ∧ dir.length < p.length ∧
      ∀ q, q <+: p → dir.length < q.length → q.length < p.length →
        lookupFS fs q = some .dir ∧ pred q .dir = true := by
  simp only [visitedBy, Bool.and_eq_true, strictUnderb_iff, List.all_eq_true]
  constructor
  · rintro ⟨⟨h1, h2⟩, h3⟩
    refine ⟨h1, h2, fun q hq hd hl => ?_⟩
    have hx := h3 q (mem_ancestorsBetween_iff.mpr ⟨hq, hd, hl⟩)
    simp only [Bool.and_eq_true, decide_eq_true_eq] at hx
    exact hx
  · rintro ⟨h1, h2, h3⟩
    refine ⟨⟨h1, h2⟩, fun q hq => ?_⟩
    obtain ⟨hq1, hq2, hq3⟩ := mem_ancestorsBetween_iff.mp hq
    have hx := h3 q hq1 hq2 hq3
    simp [hx.1, hx.2]

theorem mem_find_files {fs : FS} {dir : FPath} {pred : FPath → FType → Bool}
    {p : FPath} :
    p ∈ find_files fs dir pred ↔
      ∃ t, (p, t) ∈ fs ∧ visitedBy fs dir pred p = true ∧
        pred p t = true ∧ isYieldedType t = true := by
  simp only [find_files, List.mem_map, List.mem_filter, Bool.and_eq_true]
  constructor
  · rintro ⟨⟨q, t⟩, ⟨he, ⟨hv, hp2⟩, hy⟩, hq⟩
    cases hq
    exact ⟨t, he, hv, hp2, hy⟩
  · rintro ⟨t, hm, hv, hp, hy⟩
    exact ⟨(p, t), ⟨hm, ⟨hv, hp⟩, hy⟩, rfl⟩

theorem find_files_nodup {fs : FS} {dir : FPath}
    {pred : FPath → FType → Bool} (h : keysNodupb fs = true) :
    (find_files fs dir pred).Nodup :=
  List.Nodup.sublist ((List.filter_sublist fs).map Prod.fst)
    (keysNodupb_iff.mp h)

-- erasure-only invariants

theorem onlyErased_refl (fs : FS) : OnlyErased fs fs := fun _ => Or.inl rfl

theorem onlyErased_trans {a b c : FS} (h1 : OnlyErased a b)
    (h2 : OnlyErased b c) : OnlyErased a c := by
  intro p
  rcases h2 p with h | h
  · rw [h]
    exact h1 p
  · exact Or.inr h

theorem onlyErased_erase {fs g : FS} (h : OnlyErased fs g) (p : FPath) :
    OnlyErased fs (eraseFS g p) := by
  intro q
  rw [lookupFS_erase]
  by_cases hq : q = p
  · simp [hq]
  · rw [if_neg hq]
    exact h q

theorem onlyErased_none {fs g : FS} (h : OnlyErased fs g) {p : FPath}
    (hn : lookupFS fs p = none) : lookupFS g p = none := by
  rcases h p with hx | hx
  · rw [hx, hn]
  · exact hx

theorem onlyErased_not_dir {fs g : FS} (h : OnlyErased fs g) {p : FPath}
    (hn : lookupFS fs p ≠ some .dir) : lookupFS g p ≠ some .dir := by
  rcases h p with hx | hx
  · rw [hx]
    exact hn
  · rw [hx]
    intro hy
    cases hy

theorem subEntries_refl (fs : FS) : SubEntries fs fs := fun _ h => h

theorem subEntries_trans {a b c : FS} (h1 : SubEntries a b)
    (h2 : SubEntries b c) : SubEntries a c := fun e he => h2 e (h1 e he)

theorem subEntries_erase (fs : FS) (p : FPath) :
    SubEntries (eraseFS fs p) fs := fun e he => (mem_eraseFS.mp he).1

-- cleanup specifications

theorem cleanup_none {fs : FS} {path top : FPath} {dirs : List FPath}
    (h : lookupFS fs path = none) :
    cleanup fs path top dirs = .ok (fs, dirs) := by
  simp [cleanup, h]

theorem cleanup_file {fs : FS} {path top : FPath} {dirs : List FPath}
    {t : FType} (h : lookupFS fs path = some t) (hd : t ≠ .dir) :
    cleanup fs path top dirs =
      .ok (eraseFS fs path,
        if path = [] then dirs else recordAnc top path.dropLast dirs) := by
  rw [cleanup, if_neg (by simp [h]), removeFileFS, h]
  cases t with
  | dir => exact absurd rfl hd
  | file n => rfl
  | symlink => rfl

theorem cleanup_dir {fs : FS} {path top : FPath} {dirs : List FPath}
    (h : lookupFS fs path = some .dir) :
    cleanup fs path top dirs = .error (.fileRemove path) := by
  rw [cleanup, if_neg (by simp [h]), removeFileFS, h]

theorem cleanup_ok_cases {fs : FS} {path top : FPath} {dirs : List FPath}
    {g : FS} {d2 : List FPath}
    (h : cleanup fs path top dirs = .ok (g, d2)) :
    lookupFS g path = none ∧ OnlyErased fs g ∧ SubEntries g fs ∧
      (∀ q, q ≠ path → lookupFS g q = lookupFS fs q) ∧
      (keysNodupb fs = true → keysNodupb g = true) := by
  cases hx : lookupFS fs path with
  | none =>
    rw [cleanup_none hx] at h
    injection h with h1
    injection h1 with h1 h2
    subst h1
    exact ⟨hx, onlyErased_refl fs, subEntries_refl fs, fun _ _ => rfl,
      fun hh => hh⟩
  | some t =>
    cases t with
    | dir =>
      rw [cleanup_dir hx] at h
      cases h
    | file n =>
      rw [cleanup_file hx (by intro hy; cases hy)] at h
      injection h with h1
      injection h1 with h1 h2
      subst h1
      exact ⟨lookupFS_erase_self fs path,
        onlyErased_erase (onlyErased_refl fs) path, subEntries_erase fs path,
        fun q hq => lookupFS_erase_ne fs path q hq,
        fun hh => keysNodupb_erase hh path⟩
    | symlink =>
      rw [cleanup_file hx (by intro hy; cases hy)] at h
      injection h with h1
      injection h1 with h1 h2
      subst h1
      exact ⟨lookupFS_erase_self fs path,
        onlyErased_erase (onlyErased_refl fs) path, subEntries_erase fs path,
        fun q hq => lookupFS_erase_ne fs path q hq,
        fun hh => keysNodupb_erase hh path⟩

-- run-level erasure lemmas

theorem cleanupOutputs_ok_props {b m : FPath} {ods : List FPath}
    {st st2 : FS × List FPath}
    (h : cleanupOutputs b m ods st = .ok st2) :
    OnlyErased st.1 st2.1 ∧ SubEntries st2.1 st.1 ∧
      (keysNodupb st.1 = true → keysNodupb st2.1 = true) := by
  induction ods generalizing st with
  | nil =>
    unfold cleanupOutputs at h
    injection h with h
    subst h
    exact ⟨onlyErased_refl _, subEntries_refl _, fun hh => hh⟩
  | cons od ods ih =>
    unfold cleanupOutputs at h
    cases hx : cleanup st.1 (computedPath b od m) od st.2 with
    | error e => rw [hx] at h; cases h
    | ok st3 =>
      rw [hx] at h
      obtain ⟨g3, d3⟩ := st3
      have hc := cleanup_ok_cases hx
      have hr := ih h
      exact ⟨onlyErased_trans hc.2.1 hr.1,
        subEntries_trans hr.2.1 hc.2.2.1,
        fun hn => hr.2.2 (hc.2.2.2.2 hn)⟩

theorem processMarker_ok_props {b : FPath} {outs : List FPath}
    {st st2 : FS × List FPath} {m : FPath}
    (h : processMarker b outs st m = .ok st2) :
    OnlyErased st.1 st2.1 ∧ SubEntries st2.1 st.1 ∧
      (keysNodupb st.1 = true → keysNodupb st2.1 = true) ∧
      lookupFS st2.1 m = none := by
  unfold processMarker at h
  cases hx : cleanupOutputs b m outs st with
  | error e => rw [hx] at h; cases h
  | ok st3 =>
    rw [hx] at h
    obtain ⟨g4, d4⟩ := st2
    have hc := cleanup_ok_cases h
    have ho := cleanupOutputs_ok_props hx
    exact ⟨onlyErased_trans ho.1 hc.2.1,
      subEntries_trans hc.2.2.1 ho.2.1,
      fun hn => hc.2.2.2.2 (ho.2.2 hn), hc.1⟩

theorem processMarkers_ok_props {b : FPath} {outs : List FPath}
    {ms : List FPath} {st st2 : FS × List FPath}
    (h : processMarkers b outs ms st = .ok st2) :
    OnlyErased st.1 st2.1 ∧ SubEntries st2.1 st.1 ∧
      (keysNodupb st.1 = true → keysNodupb st2.1 = true) ∧
      ∀ m ∈ ms, lookupFS st2.1 m = none := by
  induction ms generalizing st with
  | nil =>
    unfold processMarkers at h
    injection h with h
    subst h
    exact ⟨onlyErased_refl _, subEntries_refl _, fun hh => hh,
      fun m hm => absurd hm (List.not_mem_nil m)⟩
  | cons m ms ih =>
    unfold processMarkers at h
    cases hx : processMarker b outs st m with
    | error e => rw [hx] at h; cases h
    | ok st3 =>
      rw [hx] at h
      have hp := processMarker_ok_props hx
      have hr := ih h
      refine ⟨onlyErased_trans hp.1 hr.1, subEntries_trans hr.2.1 hp.2.1,
        fun hn => hr.2.2.1 (hp.2.2.1 hn), ?_⟩
      intro m2 hm2
      rcases List.mem_cons.mp hm2 with rfl | hm2
      · exact onlyErased_none hr.1 hp.2.2.2
      · exact hr.2.2.2 m2 hm2

theorem sweepDirs_props (fs : FS) (ds : List FPath) :
    OnlyErased fs (sweepDirs fs ds) ∧ SubEntries (sweepDirs fs ds) fs ∧
      (keysNodupb fs = true → keysNodupb (sweepDirs fs ds) = true) := by
  induction ds generalizing fs with
  | nil => exact ⟨onlyErased_refl fs, subEntries_refl fs, fun h => h⟩
  | cons d ds ih =>
    have hun : sweepDirs fs (d :: ds) =
        sweepDirs (if isEmptyDir fs d then eraseFS fs d else fs) ds := rfl
    by_cases hx : isEmptyDir fs d = true
    · rw [hun, if_pos hx]
      have hr := ih (eraseFS fs d)
      exact ⟨onlyErased_trans (onlyErased_erase (onlyErased_refl fs) d) hr.1,
        subEntries_trans hr.2.1 (subEntries_erase fs d),
        fun hn => hr.2.2 (keysNodupb_erase hn d)⟩
    · rw [hun, if_neg hx]
      exact ih fs

/-- C4: running `clean_build_files` twice in a row with no intervening
promotion: the second run succeeds and performs zero filesystem mutations
(it returns the state unchanged: there is nothing left to enumerate). -/
theorem claim_C4 (fs fs2 : FS) (b : FPath) (outs : List FPath)
    (hwf : wfb fs = true)
    (h1 : clean_build_files fs b outs = .ok fs2) :
    clean_build_files fs2 b outs = .ok fs2 := by
  unfold clean_build_files at h1
  cases hx : processMarkers b outs (find_files fs b has_markers) (fs, []) with
  | error e => rw [hx] at h1; cases h1
  | ok st =>
    obtain ⟨g, dirs⟩ := st
    rw [hx] at h1
    injection h1 with h1
    have hpm := processMarkers_ok_props hx
    have hsw := sweepDirs_props g (sortDesc dirs)
    have hSE : SubEntries fs2 fs := by
      rw [← h1]
      exact subEntries_trans hsw.2.1 hpm.2.1
    have hmn : ∀ m ∈ find_files fs b has_markers, lookupFS fs2 m = none := by
      intro m hm
      rw [← h1]
      exact onlyErased_none hsw.1 (hpm.2.2.2 m hm)
    have hempty : find_files fs2 b has_markers = [] := by
      rw [List.eq_nil_iff_forall_not_mem]
      intro p hp
      obtain ⟨t, hmem, hv, hpred, hy⟩ := mem_find_files.mp hp
      have hmemfs : (p, t) ∈ fs := hSE (p, t) hmem
      have hv1 : visitedBy fs b has_markers p = true := by
        obtain ⟨hpre, hlen, _⟩ := visitedBy_iff.mp hv
        refine visitedBy_iff.mpr ⟨hpre, hlen, fun q hq hd hl => ?_⟩
        have hq0 : q ≠ [] := by
          intro hz
          subst hz
          exact absurd hd (by simp)
        exact ⟨wfb_anc hwf hmemfs hq hq0 hl, rfl⟩
      have hp1 : p ∈ find_files fs b has_markers :=
        mem_find_files.mpr ⟨t, hmemfs, hv1, hpred, hy⟩
      exact (lookupFS_eq_none_iff.mp (hmn p hp1) t) hmem
    unfold clean_build_files
    rw [hempty]
    rfl

-- skipping absent computed paths (C10) and single-marker processing (C2)

theorem cleanupOutputs_none_skip {b m : FPath} {ods : List FPath}
    {st : FS × List FPath}
    (h : ∀ od ∈ ods, lookupFS st.1 (computedPath b od m) = none) :
    cleanupOutputs b m ods st = .ok st := by
  induction ods with
  | nil => rfl
  | cons od ods ih =>
    unfold cleanupOutputs
    rw [cleanup_none (h od (List.mem_cons_self _ _))]
    exact ih (fun od2 hod2 => h od2 (List.mem_cons_of_mem _ hod2))

theorem processMarkers_ok_of_absent {fs : FS} {b : FPath}
    {outs : List FPath} (ms : List FPath) :
    ∀ (g : FS) (dirs : List FPath), OnlyErased fs g →
    (∀ m ∈ ms, ∀ od ∈ outs, lookupFS fs (computedPath b od m) = none) →
    (∀ m ∈ ms, lookupFS fs m ≠ some .dir) →
    ∃ st2, processMarkers b outs ms (g, dirs) = .ok st2 ∧
      OnlyErased fs st2.1 := by
  induction ms with
  | nil =>
    intro g dirs hoe _ _
    exact ⟨(g, dirs), rfl, hoe⟩
  | cons m ms ih =>
    intro g dirs hoe hab hnd
    have hskip : cleanupOutputs b m outs (g, dirs) = .ok (g, dirs) :=
      cleanupOutputs_none_skip (fun od hod =>
        onlyErased_none hoe (hab m (List.mem_cons_self _ _) od hod))
    have hmd : lookupFS g m ≠ some FType.dir :=
      onlyErased_not_dir hoe (hnd m (List.mem_cons_self _ _))
    have hclean : ∃ g2 d2, cleanup g m b dirs = .ok (g2, d2) ∧
        OnlyErased fs g2 := by
      cases hx : lookupFS g m with
      | none => exact ⟨g, dirs, cleanup_none hx, hoe⟩
      | some t =>
        cases t with
        | dir => exact absurd hx hmd
        | file n =>
          exact ⟨_, _, cleanup_file hx (by intro h; cases h),
            onlyErased_erase hoe m⟩
        | symlink =>
          exact ⟨_, _, cleanup_file hx (by intro h; cases h),
            onlyErased_erase hoe m⟩
    obtain ⟨g2, d2, hcl, hoe2⟩ := hclean
    obtain ⟨st2, hst2, hoe3⟩ := ih g2 d2 hoe2
      (fun m2 hm2 od hod => hab m2 (List.mem_cons_of_mem _ hm2) od hod)
      (fun m2 hm2 => hnd m2 (List.mem_cons_of_mem _ hm2))
    refine ⟨st2, ?_, hoe3⟩
    unfold processMarkers processMarker
    simp only [hskip, hcl, hst2]

/-- C10: a marker whose computed promoted-artifact path no longer exists is
skipped without an error (the skip mutates nothing), the marker itself is
still removed, and the cleanup pass as a whole succeeds. -/
theorem claim_C10 (fs : FS) (b : FPath) (outs : List FPath)
    (hnd : keysNodupb fs = true)
    (habsent : ∀ m ∈ find_files fs b has_markers, ∀ od ∈ outs,
      lookupFS fs (computedPath b od m) = none) :
    (∀ (g : FS) (p top : FPath) (dirs : List FPath),
      lookupFS g p = none → cleanup g p top dirs = .ok (g, dirs)) ∧
    ∃ fs2, clean_build_files fs b outs = .ok fs2 ∧
      ∀ m ∈ find_files fs b has_markers, lookupFS fs2 m = none := by
  refine ⟨fun g p top dirs h => cleanup_none h, ?_⟩
  have hmnotdir : ∀ m ∈ find_files fs b has_markers,
      lookupFS fs m ≠ some FType.dir := by
    intro m hm
    obtain ⟨t, hmem, _, _, hy⟩ := mem_find_files.mp hm
    rw [mem_lookupFS hnd hmem]
    intro hx
    injection hx with hx
    rw [hx] at hy
    cases hy
  obtain ⟨st2, hst2, _⟩ := processMarkers_ok_of_absent
    (find_files fs b has_markers) fs [] (onlyErased_refl fs) habsent hmnotdir
  obtain ⟨g, dirs⟩ := st2
  have hprops := processMarkers_ok_props hst2
  refine ⟨sweepDirs g (sortDesc dirs), ?_, ?_⟩
  · unfold clean_build_files
    simp only [hst2]
  · intro m hm
    exact onlyErased_none (sweepDirs_props g (sortDesc dirs)).1
      (hprops.2.2.2 m hm)

theorem claim_C10_witness :
    (keysNodupb fsC10fix = true ∧
      ∀ m ∈ find_files fsC10fix ["b"] has_markers, ∀ od ∈ [(["o"] : FPath)],
        lookupFS fsC10fix (computedPath ["b"] od m) = none) ∧
    ((∀ (g : FS) (p top : FPath) (dirs : List FPath),
      lookupFS g p = none → cleanup g p top dirs = .ok (g, dirs)) ∧
    ∃ fs2, clean_build_files fsC10fix ["b"] [["o"]] = .ok fs2 ∧
      ∀ m ∈ find_files fsC10fix ["b"] has_markers, lookupFS fs2 m = none) :=
  ⟨⟨by decide, by decide⟩,
    claim_C10 fsC10fix ["b"] [["o"]] (by decide) (by decide)⟩

theorem cleanupOutputs_notdir {b m : FPath} (ods : List FPath) :
    ∀ (g : FS) (dirs : List FPath) (g0 : FS), OnlyErased g0 g →
    (∀ od ∈ ods, lookupFS g0 (computedPath b od m) ≠ some .dir) →
    ∃ g2 d2, cleanupOutputs b m ods (g, dirs) = .ok (g2, d2) ∧
      OnlyErased g0 g2 ∧ OnlyErased g g2 ∧
      ∀ od ∈ ods, lookupFS g2 (computedPath b od m) = none := by
  induction ods with
  | nil =>
    intro g dirs g0 hoe _
    exact ⟨g, dirs, rfl, hoe, onlyErased_refl g, by simp⟩
  | cons od ods ih =>
    intro g dirs g0 hoe hnd
    have hmd : lookupFS g (computedPath b od m) ≠ some FType.dir :=
      onlyErased_not_dir hoe (hnd od (List.mem_cons_self _ _))
    have hstep : ∃ g1 d1,
        cleanup g (computedPath b od m) od dirs = .ok (g1, d1) ∧
        OnlyErased g g1 ∧ lookupFS g1 (computedPath b od m) = none := by
      cases hx : lookupFS g (computedPath b od m) with
      | none => exact ⟨g, dirs, cleanup_none hx, onlyErased_refl g, hx⟩
      | some t =>
        cases t with
        | dir => exact absurd hx hmd
        | file n =>
          exact ⟨_, _, cleanup_file hx (by intro h; cases h),
            onlyErased_erase (onlyErased_refl g) _, lookupFS_erase_self _ _⟩
        | symlink =>
          exact ⟨_, _, cleanup_file hx (by intro h; cases h),
            onlyErased_erase (onlyErased_refl g) _, lookupFS_erase_self _ _⟩
    obtain ⟨g1, d1, h1, hoe1, hnone1⟩ := hstep
    obtain ⟨g2, d2, h2, hoe02, hoe12, hnone2⟩ := ih g1 d1 g0
      (onlyErased_trans hoe hoe1)
      (fun od2 hod2 => hnd od2 (List.mem_cons_of_mem _ hod2))
    refine ⟨g2, d2, ?_, hoe02, onlyErased_trans hoe1 hoe12, ?_⟩
    · unfold cleanupOutputs
      simp only [h1, h2]
    · intro od2 hod2
      rcases List.mem_cons.mp hod2 with rfl | hod2
      · exact onlyErased_none hoe12 hnone1
      · exact hnone2 od2 hod2

/-- C2 (corrected): for one marker, `clean_build_files` computes each
promoted-artifact path by stripping the marker-directory prefix,
re-appending under the output directory, and dropping the final
dot-extension of the name (exactly the marker suffix for any marker built
from a nonempty artifact name); a regular file or symlink there is
removed, a directory there is a fatal error, and afterwards the marker
itself is removed. -/
theorem claim_C2 (g : FS) (b m : FPath) (outs : List FPath)
    (dirs : List FPath)
    (hm : lookupFS g m ≠ some .dir)
    (hout : ∀ od ∈ outs, lookupFS g (computedPath b od m) ≠ some .dir) :
    (∀ od : FPath, computedPath b od m =
      setExtensionEmpty (od ++ relUnder b m)) ∧
    (∀ (a : FPath) (od : FPath), b <+: a → b.length < a.length →
      lastComponent a ≠ "" →
      computedPath b od (markerPath a) = od ++ relUnder b a) ∧
    ∃ g2 d2, processMarker b outs (g, dirs) m = .ok (g2, d2) ∧
      (∀ od ∈ outs, lookupFS g2 (computedPath b od m) = none) ∧
      lookupFS g2 m = none := by
  refine ⟨fun od => rfl,
    fun a od h1 h2 h3 => computedPath_markerPath od h1 h2 h3, ?_⟩
  obtain ⟨g1, d1, h1, hoe01, _, hnone1⟩ := cleanupOutputs_notdir outs g dirs g
    (onlyErased_refl g) hout
  have hmd : lookupFS g1 m ≠ some FType.dir := onlyErased_not_dir hoe01 hm
  have hstep : ∃ g2 d2, cleanup g1 m b d1 = .ok (g2, d2) ∧
      OnlyErased g1 g2 ∧ lookupFS g2 m = none := by
    cases hx : lookupFS g1 m with
    | none => exact ⟨g1, d1, cleanup_none hx, onlyErased_refl g1, hx⟩
    | some t =>
      cases t with
      | dir => exact absurd hx hmd
      | file n =>
        exact ⟨_, _, cleanup_file hx (by intro h; cases h),
          onlyErased_erase (onlyErased_refl g1) _, lookupFS_erase_self _ _⟩
      | symlink =>
        exact ⟨_, _, cleanup_file hx (by intro h; cases h),
          onlyErased_erase (onlyErased_refl g1) _, lookupFS_erase_self _ _⟩
  obtain ⟨g2, d2, h2, hoe12, hmnone⟩ := hstep
  refine ⟨g2, d2, ?_, ?_, hmnone⟩
  · unfold processMarker
    simp only [h1, h2]
  · intro od hod
    exact onlyErased_none hoe12 (hnone1 od hod)

theorem claim_C2_witness :
    (lookupFS fsC4fix ["b", "x.buildsys_marker"] ≠ some .dir ∧
      ∀ od ∈ [(["o"] : FPath)],
        lookupFS fsC4fix (computedPath ["b"] od ["b", "x.buildsys_marker"])
          ≠ some .dir) ∧
    ((∀ od : FPath, computedPath ["b"] od ["b", "x.buildsys_marker"] =
      setExtensionEmpty (od ++ relUnder ["b"] ["b", "x.buildsys_marker"])) ∧
    (∀ (a : FPath) (od : FPath), ["b"] <+: a → (["b"] : FPath).length < a.length →
      lastComponent a ≠ "" →
      computedPath ["b"] od (markerPath a) = od ++ relUnder ["b"] a) ∧
    ∃ g2 d2, processMarker ["b"] [["o"]]
        (fsC4fix, []) ["b", "x.buildsys_marker"] = .ok (g2, d2) ∧
      (∀ od ∈ [(["o"] : FPath)],
        lookupFS g2 (computedPath ["b"] od ["b", "x.buildsys_marker"])
          = none) ∧
      lookupFS g2 ["b", "x.buildsys_marker"] = none) :=
  ⟨⟨by decide, by decide⟩,
    claim_C2 fsC4fix ["b"] ["b", "x.buildsys_marker"] [["o"]] []
      (by decide) (by decide)⟩

/-- C2 counterexample: the claim says a directory at the computed path is
removed, but `std::fs::remove_file` fails on a directory, so the whole
cleanup errors out and neither the directory nor the marker is removed. -/
theorem claim_C2_counterexample :
    lookupFS fsC2fix ["o", "d"] = some .dir ∧
    computedPath ["b"] ["o"] ["b", "d.buildsys_marker"] = ["o", "d"] ∧
    clean_build_files fsC2fix ["b"] [["o"]] =
      .error (.fileRemove ["o", "d"]) :=
  ⟨rfl, rfl, rfl⟩

theorem claim_C4_witness :
    (wfb fsC4fix = true ∧
      clean_build_files fsC4fix ["b"] [["o"]] =
        .ok [(["b"], .dir), (["o"], .dir)]) ∧
    clean_build_files [(["b"], FType.dir), (["o"], FType.dir)] ["b"] [["o"]] =
      .ok [(["b"], .dir), (["o"], .dir)] :=
  ⟨⟨by decide, rfl⟩,
    claim_C4 fsC4fix [(["b"], .dir), (["o"], .dir)] ["b"] [["o"]]
      (by decide) rfl⟩

-- the descending sort of cleanup candidates (C3)

theorem charToNat_inj {c d : Char} (h : c.toNat = d.toNat) : c = d :=
  Char.ext (UInt32.ext h)

theorem charListCompare_eq_iff : ∀ {a b : List Char},
    charListCompare a b = .eq ↔ a = b
  | [], [] => by simp [charListCompare]
  | [], _ :: _ => by simp [charListCompare]
  | _ :: _, [] => by simp [charListCompare]
  | c :: cs, d :: ds => by
    show (if c.toNat < d.toNat then Ordering.lt
      else if d.toNat < c.toNat then Ordering.gt
      else charListCompare cs ds) = .eq ↔ _
    by_cases h1 : c.toNat < d.toNat
    · rw [if_pos h1]
      constructor
      · intro h; cases h
      · intro h
        injection h with h2 h3
        subst h2
        exact absurd h1 (lt_irrefl _)
    · rw [if_neg h1]
      by_cases h2 : d.toNat < c.toNat
      · rw [if_pos h2]
        constructor
        · intro h; cases h
        · intro h
          injection h with h3 h4
          subst h3
          exact absurd h2 (lt_irrefl _)
      · rw [if_neg h2]
        have hcd : c = d := charToNat_inj (by omega)
        subst hcd
        rw [charListCompare_eq_iff]
        constructor
        · intro h; rw [h]
        · intro h; injection h

theorem strCompare_eq_iff {a b : String} : strCompare a b = .eq ↔ a = b := by
  unfold strCompare
  rw [charListCompare_eq_iff]
  constructor
  · intro h
    rw [← strMk_toList a, ← strMk_toList b, h]
  · intro h
    rw [h]

theorem charListCompare_swap : ∀ {a b : List Char},
    charListCompare a b = .lt ↔ charListCompare b a = .gt
  | [], [] => by simp [charListCompare]
  | [], _ :: _ => by simp [charListCompare]
  | _ :: _, [] => by simp [charListCompare]
  | c :: cs, d :: ds => by
    show (if c.toNat < d.toNat then Ordering.lt
      else if d.toNat < c.toNat then Ordering.gt
      else charListCompare cs ds) = .lt ↔
      (if d.toNat < c.toNat then Ordering.lt
      else if c.toNat < d.toNat then Ordering.gt
      else charListCompare ds cs) = .gt
    by_cases h1 : c.toNat < d.toNat
    · rw [if_pos h1, if_neg (by omega : ¬ d.toNat < c.toNat), if_pos h1]
      simp
    · rw [if_neg h1]
      by_cases h2 : d.toNat < c.toNat
      · rw [if_pos h2, if_pos h2]
        simp
      · rw [if_neg h2, if_neg h2, if_neg h1]
        exact charListCompare_swap

theorem strCompare_swap {a b : String} :
    strCompare a b = .lt ↔ strCompare b a = .gt :=
  charListCompare_swap

theorem charListCompare_notlt_trans : ∀ {a b c : List Char},
    charListCompare a b ≠ .lt → charListCompare b c ≠ .lt →
    charListCompare a c ≠ .lt
  | [], [], _ => fun _ h2 => h2
  | [], _ :: _, _ => fun h1 _ => absurd rfl h1
  | _ :: _, _, [] => fun _ _ h3 => by cases h3
  | _ :: _, [], _ :: _ => fun _ h2 _ => absurd rfl h2
  | x :: xs, y :: ys, z :: zs => by
    intro h1 h2
    have h1x : (if x.toNat < y.toNat then Ordering.lt
      else if y.toNat < x.toNat then Ordering.gt
      else charListCompare xs ys) ≠ .lt := h1
    have h2x : (if y.toNat < z.toNat then Ordering.lt
      else if z.toNat < y.toNat then Ordering.gt
      else charListCompare ys zs) ≠ .lt := h2
    show (if x.toNat < z.toNat then Ordering.lt
      else if z.toNat < x.toNat then Ordering.gt
      else charListCompare xs zs) ≠ .lt
    by_cases hxy : x.toNat < y.toNat
    · rw [if_pos hxy] at h1x
      exact absurd rfl h1x
    · by_cases hyz : y.toNat < z.toNat
      · rw [if_pos hyz] at h2x
        exact absurd rfl h2x
      · rw [if_neg (by omega : ¬ x.toNat < z.toNat)]
        by_cases hzx : z.toNat < x.toNat
        · rw [if_pos hzx]
          intro h
          cases h
        · rw [if_neg hzx]
          have hyx : ¬(y.toNat < x.toNat) := by omega
          have hzy : ¬(z.toNat < y.toNat) := by omega
          rw [if_neg hxy, if_neg hyx] at h1x
          rw [if_neg hyz, if_neg hzy] at h2x
          exact charListCompare_notlt_trans h1x h2x

theorem strCompare_notlt_trans {a b c : String}
    (h1 : strCompare a b ≠ .lt) (h2 : strCompare b c ≠ .lt) :
    strCompare a c ≠ .lt :=
  charListCompare_notlt_trans h1 h2

theorem pathCompare_eq_iff : ∀ {p q : FPath}, pathCompare p q = .eq ↔ p = q
  | [], [] => by simp [pathCompare]
  | [], _ :: _ => by simp [pathCompare]
  | _ :: _, [] => by simp [pathCompare]
  | a :: as, b :: bs => by
    show (match strCompare a b with
      | .eq => pathCompare as bs
      | o => o) = .eq ↔ _
    cases hab : strCompare a b with
    | lt =>
      simp only []
      constructor
      · intro h; cases h
      · intro h
        injection h with h1 h2
        rw [h1] at hab
        rw [strCompare_eq_iff.mpr rfl] at hab
        cases hab
    | eq =>
      simp only []
      rw [pathCompare_eq_iff]
      have hb : a = b := strCompare_eq_iff.mp hab
      subst hb
      constructor
      · intro h; rw [h]
      · intro h; injection h
    | gt =>
      simp only []
      constructor
      · intro h; cases h
      · intro h
        injection h with h1 h2
        rw [h1] at hab
        rw [strCompare_eq_iff.mpr rfl] at hab
        cases hab

theorem pathCompare_swap : ∀ {p q : FPath},
    pathCompare p q = .lt ↔ pathCompare q p = .gt
  | [], [] => by simp [pathCompare]
  | [], _ :: _ => by simp [pathCompare]
  | _ :: _, [] => by simp [pathCompare]
  | a :: as, b :: bs => by
    show (match strCompare a b with
      | .eq => pathCompare as bs
      | o => o) = .lt ↔ (match strCompare b a with
      | .eq => pathCompare bs as
      | o => o) = .gt
    cases hab : strCompare a b with
    | lt =>
      have hba : strCompare b a = .gt := strCompare_swap.mp hab
      rw [hba]
      simp
    | eq =>
      have hba : strCompare b a = .eq :=
        strCompare_eq_iff.mpr (strCompare_eq_iff.mp hab).symm
      rw [hba]
      exact pathCompare_swap
    | gt =>
      have hba : strCompare b a = .lt := strCompare_swap.mpr hab
      rw [hba]
      simp

theorem pathCompare_notlt_trans : ∀ {p q r : FPath},
    pathCompare p q ≠ .lt → pathCompare q r ≠ .lt → pathCompare p r ≠ .lt
  | [], [], r => fun _ h2 => h2
  | [], _ :: _, _ => fun h1 _ => absurd rfl h1
  | _ :: _, _, [] => fun _ _ h3 => by cases h3
  | _ :: _, [], _ :: _ => fun _ h2 _ => absurd rfl h2
  | a :: as, b :: bs, c :: cs => by
    intro h1 h2
    have h1x : (match strCompare a b with
      | .eq => pathCompare as bs
      | o => o) ≠ .lt := h1
    have h2x : (match strCompare b c with
      | .eq => pathCompare bs cs
      | o => o) ≠ .lt := h2
    have hab2 : strCompare a b ≠ .lt := by
      intro hx
      rw [hx] at h1x
      exact h1x rfl
    have hbc2 : strCompare b c ≠ .lt := by
      intro hx
      rw [hx] at h2x
      exact h2x rfl
    show (match strCompare a c with
      | .eq => pathCompare as cs
      | o => o) ≠ .lt
    cases hac : strCompare a c with
    | lt => exact absurd hac (strCompare_notlt_trans hab2 hbc2)
    | gt =>
      intro h
      cases h
    | eq =>
      have hac2 : a = c := strCompare_eq_iff.mp hac
      cases hab : strCompare a b with
      | lt => exact absurd hab hab2
      | eq =>
        have hab3 : a = b := strCompare_eq_iff.mp hab
        have hbc : strCompare b c = .eq := by
          rw [← hab3, ← hac2]
          exact strCompare_eq_iff.mpr rfl
        rw [hab] at h1x
        rw [hbc] at h2x
        exact pathCompare_notlt_trans h1x h2x
      | gt =>
        have hcb : strCompare c b = .gt := by
          rw [← hac2]
          exact hab
        exact absurd (strCompare_swap.mpr hcb) hbc2

theorem pathCompare_lt_append : ∀ (p : FPath) {r : FPath}, r ≠ [] →
    pathCompare p (p ++ r) = .lt
  | [], r => by
    intro hr
    cases r with
    | nil => exact absurd rfl hr
    | cons c cs => simp [pathCompare]
  | a :: as, r => by
    intro hr
    show (match strCompare a a with
      | .eq => pathCompare as (as ++ r)
      | o => o) = .lt
    rw [strCompare_eq_iff.mpr rfl]
    exact pathCompare_lt_append as hr

theorem pathCompare_lt_of_proper {p q : FPath} (h : p <+: q) (hne : p ≠ q) :
    pathCompare p q = .lt := by
  obtain ⟨r, rfl⟩ := h
  have hr : r ≠ [] := by
    intro hx
    subst hx
    simp at hne
  exact pathCompare_lt_append p hr

theorem insertDesc_perm (p : FPath) (l : List FPath) :
    (insertDesc p l).Perm (p :: l) := by
  induction l with
  | nil => exact List.Perm.refl _
  | cons q qs ih =>
    show (match pathCompare p q with
      | Ordering.lt => q :: insertDesc p qs
      | _ => p :: q :: qs).Perm (p :: q :: qs)
    cases h : pathCompare p q with
    | lt => exact (ih.cons q).trans (List.Perm.swap p q qs)
    | eq => exact List.Perm.refl _
    | gt => exact List.Perm.refl _

theorem sortDesc_perm (l : List FPath) : (sortDesc l).Perm l := by
  induction l with
  | nil => exact List.Perm.refl _
  | cons p ps ih =>
    exact (insertDesc_perm p (sortDesc ps)).trans (ih.cons p)

theorem insertDesc_pairwise {l : List FPath}
    (hl : l.Pairwise (fun x y => pathCompare x y ≠ .lt)) (p : FPath) :
    (insertDesc p l).Pairwise (fun x y => pathCompare x y ≠ .lt) := by
  induction l with
  | nil => simp [insertDesc]
  | cons q qs ih =>
    obtain ⟨hq, hqs⟩ := List.pairwise_cons.mp hl
    show (match pathCompare p q with
      | Ordering.lt => q :: insertDesc p qs
      | _ => p :: q :: qs).Pairwise _
    cases h : pathCompare p q with
    | lt =>
      refine List.pairwise_cons.mpr ⟨?_, ih hqs⟩
      intro y hy
      rcases List.mem_cons.mp ((insertDesc_perm p qs).mem_iff.mp hy)
        with rfl | hy2
      · rw [pathCompare_swap.mp h]
        simp
      · exact hq y hy2
    | eq =>
      refine List.pairwise_cons.mpr ⟨?_, hl⟩
      intro y hy
      rcases List.mem_cons.mp hy with rfl | hy2
      · rw [h]
        simp
      · exact pathCompare_notlt_trans (by rw [h]; simp) (hq y hy2)
    | gt =>
      refine List.pairwise_cons.mpr ⟨?_, hl⟩
      intro y hy
      rcases List.mem_cons.mp hy with rfl | hy2
      · rw [h]
        simp
      · exact pathCompare_notlt_trans (by rw [h]; simp) (hq y hy2)

theorem sortDesc_pairwise (l : List FPath) :
    (sortDesc l).Pairwise (fun x y => pathCompare x y ≠ .lt) := by
  induction l with
  | nil => simp [sortDesc]
  | cons p ps ih => exact insertDesc_pairwise ih p

/-- C3: the recorded candidate directories are sorted in descending
(reverse lexical) order before the sweep, each is removed only if it is
empty at removal time, and for markers nested as a/b/c/file with
otherwise-empty directories the removal order is c, then b, then a; a
non-empty directory halts the ascent. -/
theorem claim_C3 :
    (∀ l : List FPath,
      (sortDesc l).Pairwise (fun x y => pathCompare x y ≠ .lt)) ∧
    (∀ (fs : FS) (d : FPath) (ds : List FPath),
      sweepDirs fs (d :: ds) =
        sweepDirs (if isEmptyDir fs d then eraseFS fs d else fs) ds) ∧
    (processMarkers ["m"] [["o"]] (find_files fsC3fix ["m"] has_markers)
        (fsC3fix, [])).map (fun st => sortDesc st.2) =
      .ok [["m", "a", "b", "c"], ["m", "a", "b"], ["m", "a"]] ∧
    clean_build_files fsC3fix ["m"] [["o"]] =
      .ok [(["m"], .dir), (["o"], .dir)] ∧
    clean_build_files fsC3xfix ["m"] [["o"]] =
      .ok [(["m"], .dir), (["o"], .dir), (["m", "a"], .dir),
        (["m", "a", "keep"], .file 1)] :=
  ⟨sortDesc_pairwise, fun _ _ _ => rfl, by rfl, by rfl, by rfl⟩

-- promotion: operation specifications

theorem okMarkerSlotb_iff {x : Option FType} :
    okMarkerSlotb x = true ↔ (x = none ∨ ∃ k, x = some (.file k)) := by
  cases x with
  | none => simp [okMarkerSlotb]
  | some t =>
    cases t with
    | dir => simp [okMarkerSlotb]
    | file k => simp [okMarkerSlotb]
    | symlink => simp [okMarkerSlotb]

theorem okDirSlotb_iff {x : Option FType} :
    okDirSlotb x = true ↔ (x = none ∨ x = some .dir) := by
  cases x with
  | none => simp [okDirSlotb]
  | some t =>
    cases t with
    | dir => simp [okDirSlotb]
    | file k => simp [okDirSlotb]
    | symlink => simp [okDirSlotb]

theorem chainOkb_iff {fs : FS} {X : FPath} :
    chainOkb fs X = true ↔
      ∀ n, 0 < n → n ≤ X.dropLast.length →
        (lookupFS fs (X.dropLast.take n) = none ∨
         lookupFS fs (X.dropLast.take n) = some .dir) := by
  simp only [chainOkb, List.all_eq_true, List.mem_range, Bool.or_eq_true,
    decide_eq_true_eq]
  constructor
  · intro h n hn hlen
    rcases h n (by omega) with h1 | h1
    · omega
    · exact okDirSlotb_iff.mp h1
  · intro h n hn
    by_cases h0 : n = 0
    · exact Or.inl h0
    · exact Or.inr (okDirSlotb_iff.mpr (h n (by omega) (by omega)))

theorem promoteHypsb_spec {fs : FS} {b o : FPath}
    (h : promoteHypsb fs b o = true) :
    wfb fs = true ∧ ¬(b <+: o) ∧ ¬(o <+: b) ∧
    ∀ a ∈ find_files fs b has_artifacts,
      okMarkerSlotb (lookupFS fs (markerPath a)) = true ∧
      chainOkb fs (o ++ relUnder b a) = true ∧
      lookupFS fs (o ++ relUnder b a) ≠ some .dir := by
  simp only [promoteHypsb, Bool.and_eq_true, Bool.not_eq_true',
    decide_eq_false_iff_not, List.all_eq_true] at h
  obtain ⟨⟨⟨hwf, hbo⟩, hob⟩, hall⟩ := h
  refine ⟨hwf, hbo, hob, fun a ha => ?_⟩
  have hx := hall a ha
  simp only [Bool.and_eq_true, Bool.not_eq_true', decide_eq_false_iff_not]
    at hx
  exact ⟨hx.1.1, hx.1.2, hx.2⟩

theorem createFileFS_ok {fs : FS} {p : FPath}
    (hslot : okMarkerSlotb (lookupFS fs p) = true)
    (hparent : p.dropLast = [] ∨ lookupFS fs p.dropLast = some .dir) :
    createFileFS fs p = .ok (insertFS fs p (.file 0)) := by
  rcases okMarkerSlotb_iff.mp hslot with h | ⟨k, h⟩
  · rw [createFileFS, h, if_pos hparent]
  · rw [createFileFS, h]

theorem renameFS_ok {fs : FS} {src dst : FPath} {t : FType}
    (hs : lookupFS fs src = some t)
    (hd : lookupFS fs dst ≠ some .dir) :
    renameFS fs src dst = .ok (insertFS (eraseFS fs src) dst t) := by
  rw [renameFS, hs]
  cases hx : lookupFS fs dst with
  | none => rfl
  | some t2 =>
    cases t2 with
    | dir => exact absurd hx hd
    | file k => rfl
    | symlink => rfl

theorem append_cons_eq (xs : FPath) (c : String) (ys : FPath) :
    xs ++ c :: ys = (xs ++ [c]) ++ ys := by
  simp

theorem take_cons_shift (done : FPath) (c : String) (cs : List String)
    (k : Nat) :
    done ++ (c :: cs).take (k + 1) = (done ++ [c]) ++ cs.take k := by
  show done ++ c :: cs.take k = (done ++ [c]) ++ cs.take k
  simp

theorem take_ne_nil {l : List String} {k : Nat} (hk : 0 < k)
    (hlen : k ≤ l.length) : l.take k ≠ [] := by
  intro hx
  have h2 := congrArg List.length hx
  simp only [List.length_take, List.length_nil] at h2
  omega

theorem self_ne_append {x y : FPath} (hy : y ≠ []) : x ≠ x ++ y := by
  intro hx
  have h2 := congrArg List.length hx
  simp only [List.length_append] at h2
  have h3 : y.length = 0 := by omega
  exact hy (List.length_eq_zero.mp h3)

theorem append_take_ne {done : FPath} {c : String} {cs : List String}
    {k : Nat} (hk : 0 < k) (hklen : k ≤ cs.length) :
    done ++ [c] ≠ done ++ (c :: cs).take (k + 1) := by
  intro hx
  have h2 : ([c] : FPath) = (c :: cs).take (k + 1) :=
    List.append_cancel_left hx
  have h3 := congrArg List.length h2
  simp only [List.length_take, List.length_cons, List.length_nil] at h3
  omega

theorem createDirAllFrom_spec : ∀ (rest : List String) (fs : FS)
    (done : FPath),
    (∀ n, 0 < n → n ≤ rest.length →
      lookupFS fs (done ++ rest.take n) = none ∨
      lookupFS fs (done ++ rest.take n) = some .dir) →
    ∃ g, createDirAllFrom fs done rest = .ok g ∧
      (∀ n, 0 < n → n ≤ rest.length →
        lookupFS g (done ++ rest.take n) = some .dir) ∧
      (∀ p, (∀ n, 0 < n → n ≤ rest.length → p ≠ done ++ rest.take n) →
        lookupFS g p = lookupFS fs p) ∧
      (keysNodupb fs = true → keysNodupb g = true)
  | [], fs, done => by
    intro _
    refine ⟨fs, rfl, ?_, fun p _ => rfl, fun h => h⟩
    intro n hn hlen
    simp at hlen
    omega
  | c :: cs, fs, done => by
    intro h
    have hlen1 : (1 : Nat) ≤ (c :: cs).length := by simp
    have h1 := h 1 (by omega) hlen1
    have hcslen : (c :: cs).length = cs.length + 1 := by simp
    rcases h1 with h1 | h1
    · -- the first directory is absent: create it and recurse below it
      have h1x : lookupFS fs (done ++ [c]) = none := h1
      have hne : ∀ k, 0 < k → k ≤ cs.length →
          done ++ (c :: cs).take (k + 1) ≠ done ++ [c] :=
        fun k hk hklen => (append_take_ne hk hklen).symm
      have htail : ∀ k, 0 < k → k ≤ cs.length →
          lookupFS (insertFS fs (done ++ [c]) .dir)
            ((done ++ [c]) ++ cs.take k) = none ∨
          lookupFS (insertFS fs (done ++ [c]) .dir)
            ((done ++ [c]) ++ cs.take k) = some .dir := by
        intro k hk hklen
        rw [← take_cons_shift done c cs k,
          lookupFS_insert_ne fs (done ++ [c]) .dir _ (hne k hk hklen)]
        exact h (k + 1) (by omega) (by omega)
      obtain ⟨g, hg, hdirs, hunch, hnd⟩ := createDirAllFrom_spec cs
        (insertFS fs (done ++ [c]) .dir) (done ++ [c]) htail
      refine ⟨g, ?_, ?_, ?_, ?_⟩
      · unfold createDirAllFrom
        rw [h1x]
        exact hg
      · intro n hn hlen
        cases n with
        | zero => omega
        | succ m =>
          cases m with
          | zero =>
            show lookupFS g (done ++ [c]) = some FType.dir
            rw [hunch (done ++ [c]) (fun k hk hklen =>
              self_ne_append (take_ne_nil hk hklen))]
            exact lookupFS_insert_self fs (done ++ [c]) .dir
          | succ k =>
            have hk : 0 < k + 1 := by omega
            have hklen : k + 1 ≤ cs.length := by omega
            have hd := hdirs (k + 1) hk hklen
            rw [← take_cons_shift done c cs (k + 1)] at hd
            exact hd
      · intro p hp
        have hp1 : p ≠ done ++ [c] := hp 1 (by omega) hlen1
        rw [hunch p ?_, lookupFS_insert_ne fs (done ++ [c]) .dir p hp1]
        intro k hk hklen hx
        have h2 := hp (k + 1) (by omega) (by omega)
        rw [take_cons_shift done c cs k] at h2
        exact h2 hx
      · intro hnd2
        exact hnd (keysNodupb_insert hnd2 (done ++ [c]) .dir)
    · -- the first directory exists: recurse below it
      have h1x : lookupFS fs (done ++ [c]) = some FType.dir := h1
      have htail : ∀ k, 0 < k → k ≤ cs.length →
          lookupFS fs ((done ++ [c]) ++ cs.take k) = none ∨
          lookupFS fs ((done ++ [c]) ++ cs.take k) = some .dir := by
        intro k hk hklen
        rw [← take_cons_shift done c cs k]
        exact h (k + 1) (by omega) (by omega)
      obtain ⟨g, hg, hdirs, hunch, hnd⟩ :=
        createDirAllFrom_spec cs fs (done ++ [c]) htail
      refine ⟨g, ?_, ?_, ?_, hnd⟩
      · unfold createDirAllFrom
        rw [h1x]
        exact hg
      · intro n hn hlen
        cases n with
        | zero => omega
        | succ m =>
          cases m with
          | zero =>
            show lookupFS g (done ++ [c]) = some FType.dir
            rw [hunch (done ++ [c]) (fun k hk hklen =>
              self_ne_append (take_ne_nil hk hklen))]
            exact h1x
          | succ k =>
            have hk : 0 < k + 1 := by omega
            have hklen : k + 1 ≤ cs.length := by omega
            have hd := hdirs (k + 1) hk hklen
            rw [← take_cons_shift done c cs (k + 1)] at hd
            exact hd
      · intro p hp
        refine hunch p ?_
        intro k hk hklen hx
        have h2 := hp (k + 1) (by omega) (by omega)
        rw [take_cons_shift done c cs k] at h2
        exact h2 hx

-- geometry of the promotion: build-side and output-side positions

theorem ne_nil_of_lt_length {b a : FPath} (h : b.length < a.length) :
    a ≠ [] := by
  intro hx
  subst hx
  simp at h

theorem rel_ne_nil {b a : FPath} (h : b.length < a.length) :
    relUnder b a ≠ [] := by
  intro hx
  have h2 := congrArg List.length hx
  simp only [relUnder, List.length_drop, List.length_nil] at h2
  omega

theorem target_ne_nil {o r : FPath} (hr : r ≠ []) : o ++ r ≠ [] := by
  intro hx
  exact hr (List.append_eq_nil.mp hx).2

theorem target_length {b o a : FPath} :
    (o ++ relUnder b a).length = o.length + (a.length - b.length) := by
  simp [relUnder, List.length_drop]

/-- A build-side position and an output-side position never coincide when
neither directory contains the other. -/
theorem bside_ne_oside {b o p q : FPath} (hbo : ¬b <+: o) (hob : ¬o <+: b)
    (hp : b <+: p) (hq : q <+: o ∨ o <+: q) : p ≠ q := by
  intro heq
  subst heq
  rcases hq with hq | hq
  · exact hbo (hp.trans hq)
  · rcases List.prefix_or_prefix_of_prefix hp hq with h | h
    · exact hbo h
    · exact hob h

theorem bside_markerPath {b a : FPath} (hba : b <+: a)
    (hlen : b.length < a.length) : b <+: markerPath a := by
  have ha : a ≠ [] := ne_nil_of_lt_length hlen
  have h1 : b <+: a.dropLast := prefix_dropLast_of_lt hba hlen
  obtain ⟨xs, x, rfl⟩ := exists_concat_of_ne_nil ha
  rw [markerPath_concat]
  rw [List.dropLast_concat] at h1
  exact h1.trans (List.prefix_append xs _)

theorem chainPos_pref (X : FPath) (n : Nat) : X.dropLast.take n <+: X :=
  (List.take_prefix n X.dropLast).trans (List.dropLast_prefix X)

theorem oside_chainPos {o X : FPath} (hoX : o <+: X) (n : Nat) :
    X.dropLast.take n <+: o ∨ o <+: X.dropLast.take n :=
  List.prefix_or_prefix_of_prefix (chainPos_pref X n) hoX

theorem chainPos_ne_self {X : FPath} (hX : X ≠ []) (n : Nat) :
    X.dropLast.take n ≠ X := by
  intro hx
  have h2 := congrArg List.length hx
  have hpos : 0 < X.length := List.length_pos.mpr hX
  simp only [List.length_take, List.length_dropLast] at h2
  omega

theorem target_inj {b o a a2 : FPath} (hba : b <+: a) (hba2 : b <+: a2)
    (h : o ++ relUnder b a = o ++ relUnder b a2) : a = a2 := by
  have h2 := List.append_cancel_left h
  rw [← append_relUnder hba, ← append_relUnder hba2, h2]

theorem target_prefix_transfer {b o a a2 : FPath} (hba : b <+: a)
    (hba2 : b <+: a2) (h : o ++ relUnder b a <+: o ++ relUnder b a2) :
    a <+: a2 := by
  have h2 : relUnder b a <+: relUnder b a2 :=
    (List.prefix_append_right_inj o).mp h
  rw [← append_relUnder hba, ← append_relUnder hba2]
  exact (List.prefix_append_right_inj b).mpr h2

-- facts about the artifacts enumerated by copy_build_files

theorem art_facts {fs : FS} {b a : FPath} (hwf : wfb fs = true)
    (ha : a ∈ find_files fs b has_artifacts) :
    ∃ t, lookupFS fs a = some t ∧ isYieldedType t = true ∧
      has_artifacts a t = true ∧ b <+: a ∧ b.length < a.length := by
  obtain ⟨t, hmem, hv, hp, hy⟩ := mem_find_files.mp ha
  have hlk := mem_lookupFS (wfb_nodup hwf) hmem
  have hs : strictUnderb b a = true := by
    simp only [visitedBy, Bool.and_eq_true] at hv
    exact hv.1
  obtain ⟨hpre, hlen⟩ := strictUnderb_iff.mp hs
  exact ⟨t, hlk, hy, hp, hpre, hlen⟩

/-- No enumerated artifact is a proper prefix of another: walkdir only
descends through directories, and artifacts are files or symlinks. -/
theorem art_no_proper_pref {fs : FS} {b a a2 : FPath} (hwf : wfb fs = true)
    (ha : a ∈ find_files fs b has_artifacts)
    (ha2 : a2 ∈ find_files fs b has_artifacts)
    (hp : a <+: a2) (hne : a ≠ a2) : False := by
  obtain ⟨t, hmem, hv, _, hy⟩ := mem_find_files.mp ha
  obtain ⟨t2, _, hv2, _, _⟩ := mem_find_files.mp ha2
  have hs : strictUnderb b a = true := by
    simp only [visitedBy, Bool.and_eq_true] at hv
    exact hv.1
  obtain ⟨_, hblen⟩ := strictUnderb_iff.mp hs
  have hlen : a.length < a2.length := by
    obtain ⟨r, rfl⟩ := hp
    have hr : r ≠ [] := by
      rintro rfl
      simp at hne
    have hrp : 0 < r.length := List.length_pos.mpr hr
    simp only [List.length_append]
    omega
  have hanc : a ∈ ancestorsBetween b a2 :=
    mem_ancestorsBetween_iff.mpr ⟨hp, hblen, hlen⟩
  simp only [visitedBy, Bool.and_eq_true, List.all_eq_true] at hv2
  have hdir := hv2.2 a hanc
  simp only [Bool.and_eq_true, decide_eq_true_eq] at hdir
  have hlk := mem_lookupFS (wfb_nodup hwf) hmem
  rw [hdir.1] at hlk
  cases Option.some.inj hlk
  cases hy

/-- No enumerated artifact sits at another artifact's marker path: a file
artifact is not marker-named, and a symlink there is ruled out by the
claimable-marker-slot hypothesis. -/
theorem art_ne_markerPath {fs : FS} {b a a2 : FPath} (hwf : wfb fs = true)
    (ha : a ∈ find_files fs b has_artifacts)
    (ha2 : a2 ∈ find_files fs b has_artifacts)
    (hslot : okMarkerSlotb (lookupFS fs (markerPath a2)) = true) :
    a ≠ markerPath a2 := by
  obtain ⟨t, hlk, hy, hart, _, hlen⟩ := art_facts hwf ha
  obtain ⟨_, _, _, _, _, hlen2⟩ := art_facts hwf ha2
  have ha2ne : a2 ≠ [] := ne_nil_of_lt_length hlen2
  intro heq
  cases t with
  | dir => cases hy
  | file k =>
    simp only [has_artifacts, Bool.not_eq_true'] at hart
    rw [heq, endsWithMarker_markerPath ha2ne] at hart
    cases hart
  | symlink =>
    rw [heq] at hlk
    rw [hlk] at hslot
    cases hslot

theorem target_ne {b o a x : FPath} (hba : b <+: a) (hbx : b <+: x)
    (hne : a ≠ x) : o ++ relUnder b a ≠ o ++ relUnder b x :=
  fun h => hne (target_inj hba hbx h)

/-- One artifact's promotion target is never a destination-parent position
of a distinct artifact's promotion target. -/
theorem target_chain_clash {fs : FS} {b o a x : FPath} (hwf : wfb fs = true)
    (ha : a ∈ find_files fs b has_artifacts)
    (hx : x ∈ find_files fs b has_artifacts)
    (hne : a ≠ x) (n : Nat) :
    o ++ relUnder b a ≠ (o ++ relUnder b x).dropLast.take n := by
  intro h
  obtain ⟨_, _, _, _, hba, _⟩ := art_facts hwf ha
  obtain ⟨_, _, _, _, hbx, _⟩ := art_facts hwf hx
  have hpre : o ++ relUnder b a <+: o ++ relUnder b x := by
    rw [h]
    exact chainPos_pref _ n
  exact art_no_proper_pref hwf ha hx (target_prefix_transfer hba hbx hpre) hne

theorem copyStep_inv {fs : FS} {b o : FPath} (hyp : promoteHypsb fs b o = true)
    {done : List FPath} {g : FS} {a : FPath}
    (ha : a ∈ find_files fs b has_artifacts)
    (hdone : ∀ x ∈ done, x ∈ find_files fs b has_artifacts)
    (hnotin : a ∉ done)
    (hinv : PromoteInv fs b o done g) :
    ∃ g2, copyStep b o g a = .ok g2 ∧ PromoteInv fs b o (a :: done) g2 := by
  obtain ⟨hwf, hbo, hob, hall⟩ := promoteHypsb_spec hyp
  obtain ⟨hmka, hcha, hnda⟩ := hall a ha
  obtain ⟨t, hlk, hy, hart, hba, hblen⟩ := art_facts hwf ha
  obtain ⟨hgnd, hinvM, hinvA, hinvX, hinvC, hinvU, hinvD⟩ := hinv
  have haen : a ≠ [] := ne_nil_of_lt_length hblen
  have hbm : b <+: markerPath a := bside_markerPath hba hblen
  have hrel : relUnder b a ≠ [] := rel_ne_nil hblen
  have hXne : o ++ relUnder b a ≠ [] := target_ne_nil hrel
  have hoX : o <+: o ++ relUnder b a := List.prefix_append o _
  -- the four positions this step touches are untouched by earlier steps
  have hgm : lookupFS g (markerPath a) = lookupFS fs (markerPath a) := by
    refine hinvU _ (fun x hx => ?_)
    have hxf := hdone x hx
    obtain ⟨hmkx, _, _⟩ := hall x hxf
    obtain ⟨tx, _, _, _, hbx, hblenx⟩ := art_facts hwf hxf
    have hxne : x ≠ [] := ne_nil_of_lt_length hblenx
    have hxa : x ≠ a := fun h => hnotin (h ▸ hx)
    refine ⟨?_, ?_, ?_, fun n _ _ => ?_⟩
    · intro h
      exact hxa (markerPath_inj haen hxne h).symm
    · exact (art_ne_markerPath hwf hxf ha hmka).symm
    · exact bside_ne_oside hbo hob hbm (Or.inr (List.prefix_append o _))
    · exact bside_ne_oside hbo hob hbm (oside_chainPos (List.prefix_append o _) n)
  have hga : lookupFS g a = lookupFS fs a := by
    refine hinvU _ (fun x hx => ?_)
    have hxf := hdone x hx
    obtain ⟨hmkx, _, _⟩ := hall x hxf
    obtain ⟨tx, _, _, _, hbx, hblenx⟩ := art_facts hwf hxf
    have hxa : x ≠ a := fun h => hnotin (h ▸ hx)
    refine ⟨?_, fun h => hnotin (h ▸ hx), ?_, fun n _ _ => ?_⟩
    · exact art_ne_markerPath hwf ha hxf hmkx
    · exact bside_ne_oside hbo hob hba (Or.inr (List.prefix_append o _))
    · exact bside_ne_oside hbo hob hba (oside_chainPos (List.prefix_append o _) n)
  have hgX : lookupFS g (o ++ relUnder b a) = lookupFS fs (o ++ relUnder b a) := by
    refine hinvU _ (fun x hx => ?_)
    have hxf := hdone x hx
    obtain ⟨tx, _, _, _, hbx, hblenx⟩ := art_facts hwf hxf
    have hxa : x ≠ a := fun h => hnotin (h ▸ hx)
    refine ⟨?_, ?_, ?_, fun n _ _ => ?_⟩
    · exact (bside_ne_oside hbo hob (bside_markerPath hbx hblenx) (Or.inr hoX)).symm
    · exact (bside_ne_oside hbo hob hbx (Or.inr hoX)).symm
    · exact target_ne hba hbx hxa.symm
    · exact target_chain_clash hwf ha hxf hxa.symm n
  -- positions of the destination's parent chain are absent or directories
  have hgC : ∀ n, 0 < n → n ≤ (o ++ relUnder b a).dropLast.length →
      lookupFS g ((o ++ relUnder b a).dropLast.take n) = none ∨
      lookupFS g ((o ++ relUnder b a).dropLast.take n) = some .dir := by
    intro n hn hln
    by_cases hcase : ∃ x ∈ done, ∃ m, 0 < m ∧
        m ≤ (o ++ relUnder b x).dropLast.length ∧
        (o ++ relUnder b a).dropLast.take n = (o ++ relUnder b x).dropLast.take m
    · obtain ⟨x, hx, m, hm, hml, heq⟩ := hcase
      right
      rw [heq]
      exact hinvC x hx m hm hml
    · push_neg at hcase
      have hun : lookupFS g ((o ++ relUnder b a).dropLast.take n) =
          lookupFS fs ((o ++ relUnder b a).dropLast.take n) := by
        refine hinvU _ (fun x hx => ?_)
        have hxf := hdone x hx
        obtain ⟨tx, _, _, _, hbx, hblenx⟩ := art_facts hwf hxf
        have hxa : x ≠ a := fun h => hnotin (h ▸ hx)
        refine ⟨?_, ?_, ?_, fun m hm hml => hcase x hx m hm hml⟩
        · exact (bside_ne_oside hbo hob (bside_markerPath hbx hblenx)
            (oside_chainPos hoX n)).symm
        · exact (bside_ne_oside hbo hob hbx (oside_chainPos hoX n)).symm
        · exact (target_chain_clash hwf hxf ha hxa n).symm
      rw [hun]
      exact chainOkb_iff.mp hcha n hn hln
  -- the marker is created
  have hslotg : okMarkerSlotb (lookupFS g (markerPath a)) = true := by
    rw [hgm]
    exact hmka
  have hparent : (markerPath a).dropLast = [] ∨
      lookupFS g ((markerPath a).dropLast) = some .dir := by
    rw [markerPath_dropLast haen]
    by_cases hdl : a.dropLast = []
    · exact Or.inl hdl
    · right
      have hlt : a.dropLast.length < a.length := by
        have hpos : 0 < a.length := List.length_pos.mpr haen
        simp only [List.length_dropLast]
        omega
      exact hinvD _ (wfb_anc hwf (lookupFS_mem hlk) (List.dropLast_prefix a)
        hdl hlt)
  have hstep1 : createMarkerFor g a =
      .ok (insertFS g (markerPath a) (.file 0)) :=
    createFileFS_ok hslotg hparent
  have hg1C : ∀ n, 0 < n → n ≤ (o ++ relUnder b a).dropLast.length →
      lookupFS (insertFS g (markerPath a) (.file 0))
        ((o ++ relUnder b a).dropLast.take n) = none ∨
      lookupFS (insertFS g (markerPath a) (.file 0))
        ((o ++ relUnder b a).dropLast.take n) = some .dir := by
    intro n hn hln
    rw [lookupFS_insert_ne _ _ _ _
      (bside_ne_oside hbo hob hbm (oside_chainPos hoX n)).symm]
    exact hgC n hn hln
  -- the destination's parent directories are created
  obtain ⟨g2, hg2run, hg2dirs, hg2unch, hg2nd⟩ :=
    createDirAllFrom_spec ((o ++ relUnder b a).dropLast)
      (insertFS g (markerPath a) (.file 0)) []
      (by intro n hn hln; simpa using hg1C n hn hln)
  have hg2dirs2 : ∀ n, 0 < n → n ≤ (o ++ relUnder b a).dropLast.length →
      lookupFS g2 ((o ++ relUnder b a).dropLast.take n) = some .dir :=
    fun n hn hln => by simpa using hg2dirs n hn hln
  have hg2unch2 : ∀ p,
      (∀ n, 0 < n → n ≤ (o ++ relUnder b a).dropLast.length →
        p ≠ (o ++ relUnder b a).dropLast.take n) →
      lookupFS g2 p = lookupFS (insertFS g (markerPath a) (.file 0)) p :=
    fun p hp => hg2unch p (by intro n hn hln; simpa using hp n hn hln)
  -- the artifact is renamed onto its target
  have hg2a : lookupFS g2 a = some t := by
    rw [hg2unch2 a (fun n _ _ =>
        bside_ne_oside hbo hob hba (oside_chainPos hoX n)),
      lookupFS_insert_ne _ _ _ _ (markerPath_ne_self a).symm, hga]
    exact hlk
  have hg2X : lookupFS g2 (o ++ relUnder b a) ≠ some .dir := by
    rw [hg2unch2 _ (fun n _ _ => (chainPos_ne_self hXne n).symm),
      lookupFS_insert_ne _ _ _ _
        (bside_ne_oside hbo hob hbm (Or.inr hoX)).symm, hgX]
    exact hnda
  have hstep2 : renameFS g2 a (o ++ relUnder b a) =
      .ok (insertFS (eraseFS g2 a) (o ++ relUnder b a) t) :=
    renameFS_ok hg2a hg2X
  have hg1nd : keysNodupb (insertFS g (markerPath a) (.file 0)) = true :=
    keysNodupb_insert hgnd _ _
  have hstepU : ∀ p, p ≠ markerPath a → p ≠ a → p ≠ o ++ relUnder b a →
      (∀ n, 0 < n → n ≤ (o ++ relUnder b a).dropLast.length →
        p ≠ (o ++ relUnder b a).dropLast.take n) →
      lookupFS (insertFS (eraseFS g2 a) (o ++ relUnder b a) t) p =
        lookupFS g p := by
    intro p h1 h2 h3 h4
    rw [lookupFS_insert_ne _ _ _ _ h3, lookupFS_erase_ne _ _ _ h2,
      hg2unch2 p h4, lookupFS_insert_ne _ _ _ _ h1]
  refine ⟨insertFS (eraseFS g2 a) (o ++ relUnder b a) t, ?_, ?_⟩
  · unfold copyStep
    simp only [hstep1]
    unfold moveArtifact createDirAll
    simp only [hg2run]
    exact hstep2
  refine ⟨?_, ?_, ?_, ?_, ?_, ?_, ?_⟩
  · exact keysNodupb_insert (keysNodupb_erase (hg2nd hg1nd) a) _ _
  · -- each promoted artifact's marker is in place
    intro x hx
    rcases List.mem_cons.mp hx with rfl | hx
    · rw [lookupFS_insert_ne _ _ _ _ (bside_ne_oside hbo hob hbm (Or.inr hoX)),
        lookupFS_erase_ne _ _ _ (markerPath_ne_self x),
        hg2unch2 _ (fun n _ _ => bside_ne_oside hbo hob hbm
          (oside_chainPos hoX n))]
      exact lookupFS_insert_self g (markerPath x) (.file 0)
    · have hxf := hdone x hx
      obtain ⟨hmkx, _, _⟩ := hall x hxf
      obtain ⟨tx, _, _, _, hbx, hblenx⟩ := art_facts hwf hxf
      have hxne : x ≠ [] := ne_nil_of_lt_length hblenx
      have hxa : x ≠ a := fun h => hnotin (h ▸ hx)
      rw [hstepU _ (fun h => hxa (markerPath_inj hxne haen h))
        (art_ne_markerPath hwf ha hxf hmkx).symm
        (bside_ne_oside hbo hob (bside_markerPath hbx hblenx) (Or.inr hoX))
        (fun n _ _ => bside_ne_oside hbo hob (bside_markerPath hbx hblenx)
          (oside_chainPos hoX n))]
      exact hinvM x hx
  · -- each promoted artifact's original slot is empty
    intro x hx
    rcases List.mem_cons.mp hx with rfl | hx
    · rw [lookupFS_insert_ne _ _ _ _ (bside_ne_oside hbo hob hba (Or.inr hoX))]
      exact lookupFS_erase_self g2 x
    · have hxf := hdone x hx
      obtain ⟨hmkx, _, _⟩ := hall x hxf
      obtain ⟨tx, _, _, _, hbx, hblenx⟩ := art_facts hwf hxf
      have hxa : x ≠ a := fun h => hnotin (h ▸ hx)
      rw [hstepU _ (art_ne_markerPath hwf hxf ha hmka) hxa
        (bside_ne_oside hbo hob hbx (Or.inr hoX))
        (fun n _ _ => bside_ne_oside hbo hob hbx (oside_chainPos hoX n))]
      exact hinvA x hx
  · -- each promoted artifact sits at its target
    intro x hx
    rcases List.mem_cons.mp hx with rfl | hx
    · rw [lookupFS_insert_self, hlk]
    · have hxf := hdone x hx
      obtain ⟨tx, _, _, _, hbx, hblenx⟩ := art_facts hwf hxf
      have hxa : x ≠ a := fun h => hnotin (h ▸ hx)
      rw [hstepU _
        (bside_ne_oside hbo hob hbm (Or.inr (List.prefix_append o _))).symm
        (bside_ne_oside hbo hob hba (Or.inr (List.prefix_append o _))).symm
        (target_ne hbx hba hxa)
        (fun n _ _ => target_chain_clash hwf hxf ha hxa n)]
      exact hinvX x hx
  · -- each target's parent chain consists of directories
    intro x hx m hm hml
    rcases List.mem_cons.mp hx with rfl | hx
    · rw [lookupFS_insert_ne _ _ _ _ (chainPos_ne_self hXne m),
        lookupFS_erase_ne _ _ _
          (bside_ne_oside hbo hob hba (oside_chainPos hoX m)).symm]
      exact hg2dirs2 m hm hml
    · have hxf := hdone x hx
      obtain ⟨tx, _, _, _, hbx, hblenx⟩ := art_facts hwf hxf
      have hxa : x ≠ a := fun h => hnotin (h ▸ hx)
      by_cases hqc : ∃ n, 0 < n ∧ n ≤ (o ++ relUnder b a).dropLast.length ∧
          (o ++ relUnder b x).dropLast.take m =
            (o ++ relUnder b a).dropLast.take n
      · obtain ⟨n, hn, hln, heq⟩ := hqc
        rw [heq, lookupFS_insert_ne _ _ _ _ (chainPos_ne_self hXne n),
          lookupFS_erase_ne _ _ _
            (bside_ne_oside hbo hob hba (oside_chainPos hoX n)).symm]
        exact hg2dirs2 n hn hln
      · push_neg at hqc
        rw [hstepU _
          (bside_ne_oside hbo hob hbm
            (oside_chainPos (List.prefix_append o _) m)).symm
          (bside_ne_oside hbo hob hba
            (oside_chainPos (List.prefix_append o _) m)).symm
          (target_chain_clash hwf ha hxf hxa.symm m).symm
          (fun n hn hln => hqc n hn hln)]
        exact hinvC x hx m hm hml
  · -- positions not touched by any promotion are unchanged
    intro p hp
    have hpa := hp a (List.mem_cons_self a done)
    rw [hstepU p hpa.1 hpa.2.1 hpa.2.2.1 hpa.2.2.2]
    exact hinvU p (fun x hx => hp x (List.mem_cons_of_mem a hx))
  · -- directories of the original tree survive
    intro p hfsdir
    have hgdir := hinvD p hfsdir
    by_cases hqc : ∃ n, 0 < n ∧ n ≤ (o ++ relUnder b a).dropLast.length ∧
        p = (o ++ relUnder b a).dropLast.take n
    · obtain ⟨n, hn, hln, rfl⟩ := hqc
      rw [lookupFS_insert_ne _ _ _ _ (chainPos_ne_self hXne n),
        lookupFS_erase_ne _ _ _
          (bside_ne_oside hbo hob hba (oside_chainPos hoX n)).symm]
      exact hg2dirs2 n hn hln
    · push_neg at hqc
      have h1 : p ≠ markerPath a := by
        intro h
        rw [← h, hfsdir] at hmka
        simp [okMarkerSlotb] at hmka
      have h2 : p ≠ a := by
        intro h
        rw [h, hlk] at hfsdir
        rw [Option.some.inj hfsdir] at hy
        simp [isYieldedType] at hy
      have h3 : p ≠ o ++ relUnder b a := by
        intro h
        rw [h] at hfsdir
        exact hnda hfsdir
      rw [hstepU p h1 h2 h3 hqc]
      exact hgdir

theorem promoteInv_congr {fs : FS} {b o : FPath} {d1 d2 : List FPath}
    {g : FS} (h : ∀ x, x ∈ d1 ↔ x ∈ d2) (hinv : PromoteInv fs b o d1 g) :
    PromoteInv fs b o d2 g := by
  obtain ⟨h1, h2, h3, h4, h5, h6, h7⟩ := hinv
  refine ⟨h1, fun x hx => h2 x ((h x).mpr hx), fun x hx => h3 x ((h x).mpr hx),
    fun x hx => h4 x ((h x).mpr hx), fun x hx => h5 x ((h x).mpr hx),
    fun p hp => h6 p (fun x hx => hp x ((h x).mp hx)), h7⟩

theorem copyGo_inv {fs : FS} {b o : FPath} (hyp : promoteHypsb fs b o = true) :
    ∀ (todo done : List FPath) (g : FS),
      (∀ x ∈ todo, x ∈ find_files fs b has_artifacts) →
      (∀ x ∈ done, x ∈ find_files fs b has_artifacts) →
      (∀ x ∈ todo, x ∉ done) →
      todo.Nodup →
      PromoteInv fs b o done g →
      ∃ g2, copyGo b o todo g = .ok g2 ∧ PromoteInv fs b o (todo ++ done) g2
  | [], done, g => fun _ _ _ _ hinv => ⟨g, rfl, hinv⟩
  | a :: as, done, g => by
    intro htodo hdone hdisj hnd hinv
    obtain ⟨hnas, hndas⟩ := List.nodup_cons.mp hnd
    obtain ⟨g1, hstep, hinv1⟩ := copyStep_inv hyp
      (htodo a (List.mem_cons_self a as)) hdone
      (hdisj a (List.mem_cons_self a as)) hinv
    obtain ⟨g2, hrun, hinv2⟩ := copyGo_inv hyp as (a :: done) g1
      (fun x hx => htodo x (List.mem_cons_of_mem a hx))
      (fun x hx => by
        rcases List.mem_cons.mp hx with rfl | hx2
        · exact htodo x (List.mem_cons_self x as)
        · exact hdone x hx2)
      (fun x hx hmem => by
        rcases List.mem_cons.mp hmem with rfl | hm
        · exact hnas hx
        · exact hdisj x (List.mem_cons_of_mem a hx) hm)
      hndas hinv1
    refine ⟨g2, ?_, ?_⟩
    · unfold copyGo
      simp only [hstep]
      exact hrun
    · refine promoteInv_congr (fun x => ?_) hinv2
      simp only [List.mem_append, List.mem_cons]
      tauto

theorem createMarkerFor_ok_shape {s : FS} {a : FPath} {s1 : FS}
    (h : createMarkerFor s a = .ok s1) :
    s1 = insertFS s (markerPath a) (.file 0) := by
  unfold createMarkerFor createFileFS at h
  split at h
  · exact (Except.ok.inj h).symm
  · cases h
  · cases h
  · split at h
    · exact (Except.ok.inj h).symm
    · cases h

/-- C1: after a successful `copy_build_files` run under the promotion
sanity conditions, every enumerated artifact has a zero-length marker at
its path plus the marker suffix inside the build directory, its original
slot is gone, and its node sits at the same relative path under the output
directory; moreover each per-artifact step factors as marker creation
first (a state in which the marker exists and the artifact is still in
place) followed by the move. -/
theorem claim_C1 {fs : FS} {b o : FPath} (hyp : promoteHypsb fs b o = true) :
    ∃ g, copy_build_files fs b o = .ok g ∧
      ∀ a ∈ find_files fs b has_artifacts,
        (lookupFS g (markerPath a) = some (.file 0) ∧
         lookupFS g a = none ∧
         lookupFS g (o ++ relUnder b a) = lookupFS fs a ∧
         ∃ t, lookupFS fs a = some t ∧ isYieldedType t = true) ∧
        ∀ s s2, copyStep b o s a = .ok s2 →
          ∃ s1, createMarkerFor s a = .ok s1 ∧
            lookupFS s1 (markerPath a) = some (.file 0) ∧
            lookupFS s1 a = lookupFS s a ∧
            moveArtifact b o s1 a = .ok s2 := by
  obtain ⟨hwf, _, _, _⟩ := promoteHypsb_spec hyp
  have hinv0 : PromoteInv fs b o [] fs := by
    refine ⟨wfb_nodup hwf, ?_, ?_, ?_, ?_, fun p _ => rfl, fun p h => h⟩ <;>
      exact fun a ha => (List.not_mem_nil a ha).elim
  obtain ⟨g, hrun, hinv⟩ := copyGo_inv hyp (find_files fs b has_artifacts)
    [] fs (fun x hx => hx) (fun x hx => (List.not_mem_nil x hx).elim)
    (fun x _ => List.not_mem_nil x) (find_files_nodup (wfb_nodup hwf)) hinv0
  have hinv2 : PromoteInv fs b o (find_files fs b has_artifacts) g :=
    promoteInv_congr (fun x => by simp) hinv
  obtain ⟨_, hM, hA, hX, _, _, _⟩ := hinv2
  refine ⟨g, hrun, fun a ha => ⟨⟨hM a ha, hA a ha, hX a ha, ?_⟩, ?_⟩⟩
  · obtain ⟨t, hlk, hy, _⟩ := art_facts hwf ha
    exact ⟨t, hlk, hy⟩
  · intro s s2 hstep
    cases hc : createMarkerFor s a with
    | error e =>
      unfold copyStep at hstep
      rw [hc] at hstep
      cases hstep
    | ok s1 =>
      have hshape := createMarkerFor_ok_shape hc
      subst hshape
      refine ⟨_, rfl, lookupFS_insert_self s (markerPath a) (.file 0),
        lookupFS_insert_ne s (markerPath a) _ a (markerPath_ne_self a).symm,
        ?_⟩
      unfold copyStep at hstep
      rw [hc] at hstep
      exact hstep

theorem claim_C1_witness :
    promoteHypsb fsC5fix ["b"] ["o"] = true ∧
    (∃ g, copy_build_files fsC5fix ["b"] ["o"] = .ok g ∧
      ∀ a ∈ find_files fsC5fix ["b"] has_artifacts,
        (lookupFS g (markerPath a) = some (.file 0) ∧
         lookupFS g a = none ∧
         lookupFS g (["o"] ++ relUnder ["b"] a) = lookupFS fsC5fix a ∧
         ∃ t, lookupFS fsC5fix a = some t ∧ isYieldedType t = true) ∧
        ∀ s s2, copyStep ["b"] ["o"] s a = .ok s2 →
          ∃ s1, createMarkerFor s a = .ok s1 ∧
            lookupFS s1 (markerPath a) = some (.file 0) ∧
            lookupFS s1 a = lookupFS s a ∧
            moveArtifact ["b"] ["o"] s1 a = .ok s2) :=
  ⟨by decide, @claim_C1 fsC5fix ["b"] ["o"] (by decide)⟩

-- the ancestor-recording walk of cleanup

theorem contains_iff_mem {l : List FPath} {q : FPath} :
    l.contains q = true ↔ q ∈ l := by
  simp

theorem take_of_pref {l p : FPath} (h : l <+: p) : p.take l.length = l :=
  (List.prefix_iff_eq_take.mp h).symm

theorem dropLast_take {p : FPath} {i : Nat} (hi : i ≤ p.length) :
    (p.take i).dropLast = p.take (i - 1) := by
  rw [List.dropLast_eq_take, List.length_take_of_le hi, List.take_take]
  have hm : min (i - 1) i = i - 1 := by omega
  rw [hm]

theorem take_inj_of_le {p : FPath} {i j : Nat} (hi : i ≤ p.length)
    (hj : j ≤ p.length) (h : p.take i = p.take j) : i = j := by
  have h2 := congrArg List.length h
  rw [List.length_take_of_le hi, List.length_take_of_le hj] at h2
  exact h2

theorem prefix_take_of_pref {top p : FPath} (htp : top <+: p) {i : Nat}
    (hi : top.length ≤ i) : top <+: p.take i := by
  rw [← take_of_pref htp]
  exact List.take_prefix_take_left p hi

theorem recordAncLen_zero (top p : FPath) (D : List FPath) :
    recordAncLen top p 0 D =
      if ([] : FPath) = top ∨ D.contains ([] : FPath) = true then D
      else [] :: D := rfl

theorem recordAncLen_succ (top p : FPath) (k : Nat) (D : List FPath) :
    recordAncLen top p (k + 1) D =
      if p.take (k + 1) = top ∨ D.contains (p.take (k + 1)) = true then D
      else recordAncLen top p k (p.take (k + 1) :: D) := rfl

/-- The candidate list only grows. -/
theorem recordAncLen_sub (top p : FPath) :
    ∀ (k : Nat) (D : List FPath), ∀ x ∈ D, x ∈ recordAncLen top p k D
  | 0, D => by
    intro x hx
    rw [recordAncLen_zero]
    split
    · exact hx
    · exact List.mem_cons_of_mem _ hx
  | k + 1, D => by
    intro x hx
    rw [recordAncLen_succ]
    split
    · exact hx
    · exact recordAncLen_sub top p k _ x (List.mem_cons_of_mem _ hx)

/-- Everything the walk adds is a position of the walked path strictly
below the stopping directory. -/
theorem recordAncLen_provenance (top p : FPath) (htp : top <+: p) :
    ∀ (k : Nat) (D : List FPath), k ≤ p.length → top.length ≤ k →
      ∀ q ∈ recordAncLen top p k D,
        q ∈ D ∨ ∃ j, top.length < j ∧ j ≤ k ∧ q = p.take j
  | 0, D => by
    intro _ hk q hq
    have htop : top = [] := List.length_eq_zero.mp (by omega)
    rw [recordAncLen_zero, if_pos (Or.inl htop.symm)] at hq
    exact Or.inl hq
  | k + 1, D => by
    intro hk hkt q hq
    rw [recordAncLen_succ] at hq
    split at hq
    · exact Or.inl hq
    · rcases Nat.lt_or_ge top.length (k + 1) with hlt | hge
      · rcases recordAncLen_provenance top p htp k _ (by omega) (by omega) q hq
          with hq2 | ⟨j, hj1, hj2, hj3⟩
        · rcases List.mem_cons.mp hq2 with rfl | hq3
          · exact Or.inr ⟨k + 1, hlt, le_refl _, rfl⟩
          · exact Or.inl hq3
        · exact Or.inr ⟨j, hj1, by omega, hj3⟩
      · exfalso
        have hteq : top.length = k + 1 := by omega
        have : p.take (k + 1) = top := by
          rw [← hteq]
          exact take_of_pref htp
        rename_i hcond
        exact hcond (Or.inl this)

/-- Walking up from any recorded position stays recorded down to the
stopping directory, under the parent-closure property. -/
theorem upclosed_chain (top p : FPath) (htp : top <+: p) (m : Nat)
    (hmp : m ≤ p.length) (D : List FPath)
    (hD : ∀ q ∈ D, top <+: q → q ≠ top →
      (q.dropLast = top ∨ q.dropLast ∈ D ∨ q.dropLast = p.take m)) :
    ∀ i, i ≤ m → p.take i ∈ D →
      ∀ j, top.length < j → j ≤ i → p.take j ∈ D := by
  intro i
  induction i with
  | zero =>
    intro _ _ j hj1 hj2
    omega
  | succ i ih =>
    intro him hmem j hj1 hj2
    rcases Nat.lt_or_ge j (i + 1) with hlt | hge
    · have hip : i + 1 ≤ p.length := by omega
      have htpre : top <+: p.take (i + 1) := prefix_take_of_pref htp (by omega)
      have htne : p.take (i + 1) ≠ top := by
        intro hx
        have h2 : p.take (i + 1) = p.take top.length := by
          rw [hx, take_of_pref htp]
        have h3 := @take_inj_of_le p (i + 1) top.length hip htp.length_le h2
        omega
      have hdl : (p.take (i + 1)).dropLast = p.take i := by
        rw [@dropLast_take p (i + 1) hip]
        simp
      rcases hD _ hmem htpre htne with hc | hc | hc
      · exfalso
        rw [hdl] at hc
        have h2 : p.take i = p.take top.length := by
          rw [hc, take_of_pref htp]
        have h3 := @take_inj_of_le p i top.length (by omega) htp.length_le h2
        omega
      · rw [hdl] at hc
        exact ih (by omega) hc j hj1 (by omega)
      · exfalso
        rw [hdl] at hc
        have h3 := @take_inj_of_le p i m (by omega) hmp hc
        omega
    · have hj : j = i + 1 := by omega
      rw [hj]
      exact hmem

/-- Parent-closure on the stopping directory's side: every recorded
position strictly below `top` has its parent recorded (or equal to `top`),
assuming the input list is almost closed with the walk's current position
as the only permitted gap. -/
theorem recordAncLen_upclosed (top p : FPath) (htp : top <+: p) :
    ∀ (k : Nat) (D : List FPath), k ≤ p.length → top.length ≤ k →
      (∀ q ∈ D, top <+: q → q ≠ top →
        (q.dropLast = top ∨ q.dropLast ∈ D ∨ q.dropLast = p.take k)) →
      ∀ q ∈ recordAncLen top p k D, top <+: q → q ≠ top →
        (q.dropLast = top ∨ q.dropLast ∈ recordAncLen top p k D)
  | 0, D => by
    intro _ hk hD q hq hq1 hq2
    have htop : top = [] := List.length_eq_zero.mp (by omega)
    rw [recordAncLen_zero, if_pos (Or.inl htop.symm)] at hq ⊢
    rcases hD q hq hq1 hq2 with hc | hc | hc
    · exact Or.inl hc
    · exact Or.inr hc
    · rw [List.take_zero, ← htop] at hc
      exact Or.inl hc
  | k + 1, D => by
    intro hk hkt hD q hq hq1 hq2
    rw [recordAncLen_succ] at hq ⊢
    split at hq
    · rename_i hcond
      rw [if_pos hcond]
      rcases hD q hq hq1 hq2 with hc | hc | hc
      · exact Or.inl hc
      · exact Or.inr hc
      · rcases hcond with hcond | hcond
        · rw [hcond] at hc
          exact Or.inl hc
        · rw [← hc] at hcond
          exact Or.inr (contains_iff_mem.mp hcond)
    · rename_i hcond
      rw [if_neg hcond]
      rcases Nat.lt_or_ge top.length (k + 1) with hlt | hge
      · refine recordAncLen_upclosed top p htp k _ (by omega) (by omega)
          ?_ q hq hq1 hq2
        intro r hr hr1 hr2
        rcases List.mem_cons.mp hr with rfl | hr3
        · right
          right
          rw [@dropLast_take p (k + 1) hk]
          simp
        · rcases hD r hr3 hr1 hr2 with hc | hc | hc
          · exact Or.inl hc
          · exact Or.inr (Or.inl (List.mem_cons_of_mem _ hc))
          · exact Or.inr (Or.inl (hc ▸ List.mem_cons_self _ _))
      · exfalso
        have hteq : top.length = k + 1 := by omega
        refine hcond (Or.inl ?_)
        rw [← hteq]
        exact take_of_pref htp

/-- After the walk, every position of the walked path strictly below the
stopping directory is recorded. -/
theorem recordAncLen_complete (top p : FPath) (htp : top <+: p) :
    ∀ (k : Nat) (D : List FPath), k ≤ p.length → top.length ≤ k →
      (∀ q ∈ D, top <+: q → q ≠ top →
        (q.dropLast = top ∨ q.dropLast ∈ D ∨ q.dropLast = p.take k)) →
      ∀ j, top.length < j → j ≤ k → p.take j ∈ recordAncLen top p k D
  | 0, D => by
    intro _ _ _ j hj1 hj2
    omega
  | k + 1, D => by
    intro hk hkt hD j hj1 hj2
    rw [recordAncLen_succ]
    split
    · rename_i hcond
      rcases hcond with hcond | hcond
      · exfalso
        have := @take_inj_of_le p (k + 1) top.length hk htp.length_le
          (by rw [hcond, take_of_pref htp])
        omega
      · exact upclosed_chain top p htp (k + 1) hk D hD (k + 1) (le_refl _)
          (contains_iff_mem.mp hcond) j hj1 hj2
    · rename_i hcond
      have hlt : top.length < k + 1 := by
        rcases Nat.lt_or_ge top.length (k + 1) with h | h
        · exact h
        · exfalso
          have hteq : top.length = k + 1 := by omega
          refine hcond (Or.inl ?_)
          rw [← hteq]
          exact take_of_pref htp
      rcases Nat.lt_or_ge j (k + 1) with hjlt | hjge
      · refine recordAncLen_complete top p htp k _ (by omega) (by omega)
          ?_ j hj1 (by omega)
        intro r hr hr1 hr2
        rcases List.mem_cons.mp hr with rfl | hr3
        · right
          right
          rw [@dropLast_take p (k + 1) hk]
          simp
        · rcases hD r hr3 hr1 hr2 with hc | hc | hc
          · exact Or.inl hc
          · exact Or.inr (Or.inl (List.mem_cons_of_mem _ hc))
          · exact Or.inr (Or.inl (hc ▸ List.mem_cons_self _ _))
      · have hj : j = k + 1 := by omega
        rw [hj]
        exact recordAncLen_sub top p k _ _ (List.mem_cons_self _ _)

theorem recordAnc_sub {top p : FPath} {D : List FPath} :
    ∀ x ∈ D, x ∈ recordAnc top p D :=
  recordAncLen_sub top p p.length D

theorem recordAnc_provenance {top p : FPath} (htp : top <+: p)
    {D : List FPath} :
    ∀ q ∈ recordAnc top p D,
      q ∈ D ∨ ∃ j, top.length < j ∧ j ≤ p.length ∧ q = p.take j :=
  recordAncLen_provenance top p htp p.length D (le_refl _) htp.length_le

theorem recordAnc_upclosed {top p : FPath} (htp : top <+: p)
    {D : List FPath} (hD : UpClosedTop top D) :
    UpClosedTop top (recordAnc top p D) :=
  recordAncLen_upclosed top p htp p.length D (le_refl _) htp.length_le
    (fun q hq h1 h2 => (hD q hq h1 h2).imp id Or.inl)

theorem recordAnc_complete {top p : FPath} (htp : top <+: p)
    {D : List FPath} (hD : UpClosedTop top D) :
    ∀ j, top.length < j → j ≤ p.length → p.take j ∈ recordAnc top p D :=
  recordAncLen_complete top p htp p.length D (le_refl _) htp.length_le
    (fun q hq h1 h2 => (hD q hq h1 h2).imp id Or.inl)

/-- The descending sweep removes every directory of a parent-closed family
whose members are all candidates and whose subtrees contain only family
members: deeper members are processed first, so each member is empty when
its turn comes. -/
theorem sweep_clears (S : FPath → Prop) :
    ∀ (ds : List FPath) (fs1 : FS),
      keysNodupb fs1 = true →
      ds.Pairwise (fun x y => pathCompare x y ≠ .lt) →
      (∀ q, S q → lookupFS fs1 q = some .dir ∨ lookupFS fs1 q = none) →
      (∀ q, S q → q ∉ ds → lookupFS fs1 q = none) →
      (∀ e ∈ fs1, ∀ q, S q → q <+: e.1 → e.1 ≠ q → (S e.1 ∧ e.1 ∈ ds)) →
      ∀ q, S q → lookupFS (sweepDirs fs1 ds) q = none
  | [], fs1 => fun _ _ _ h4 _ q hq => h4 q hq (List.not_mem_nil q)
  | d :: ds, fs1 => by
    intro hnd hpw h3 h4 h5 q hq
    obtain ⟨hpw1, hpw2⟩ := List.pairwise_cons.mp hpw
    have hempty : S d → lookupFS fs1 d = some .dir → isEmptyDir fs1 d = true := by
      intro hSd hdir
      simp only [isEmptyDir, hdir, decide_eq_true_eq, Bool.and_eq_true,
        Bool.not_eq_true', List.any_eq_false, Bool.and_eq_true,
        decide_eq_true_eq]
      refine ⟨trivial, fun e he => ?_⟩
      intro ⟨hlen, hpre⟩
      have hne : e.1 ≠ d := by
        intro hx
        rw [hx] at hlen
        omega
      obtain ⟨_, hmem⟩ := h5 e he d hSd hpre hne
      rcases List.mem_cons.mp hmem with hx | hx
      · exact hne hx
      · exact hpw1 e.1 hx (pathCompare_lt_of_proper hpre (Ne.symm hne))
    have hrun : sweepDirs fs1 (d :: ds) =
        sweepDirs (if isEmptyDir fs1 d then eraseFS fs1 d else fs1) ds := rfl
    rw [hrun]
    have hnd2 : keysNodupb (if isEmptyDir fs1 d then eraseFS fs1 d else fs1) =
        true := by
      split
      · exact keysNodupb_erase hnd d
      · exact hnd
    have hlk2 : ∀ r, lookupFS (if isEmptyDir fs1 d then eraseFS fs1 d else fs1)
        r = if isEmptyDir fs1 d ∧ r = d then none else lookupFS fs1 r := by
      intro r
      split
      · rename_i hx
        rw [lookupFS_erase]
        by_cases hr : r = d
        · rw [if_pos hr, if_pos ⟨hx, hr⟩]
        · rw [if_neg hr, if_neg (fun hc => hr hc.2)]
      · rename_i hx
        rw [if_neg (fun hc => hx hc.1)]
    refine sweep_clears S ds _ hnd2 hpw2 ?_ ?_ ?_ q hq
    · intro r hr
      rw [hlk2 r]
      split
      · exact Or.inr rfl
      · exact h3 r hr
    · intro r hr hrds
      rw [hlk2 r]
      split
      · rfl
      · rename_i hx
        by_cases hrd : r = d
        · rcases h3 r hr with hdir | hnone
          · exfalso
            rw [hrd] at hdir
            exact hx ⟨hempty (hrd ▸ hr) hdir, hrd⟩
          · exact hnone
        · exact h4 r hr (fun hm => by
            rcases List.mem_cons.mp hm with hm2 | hm2
            · exact hrd hm2
            · exact hrds hm2)
    · intro e he r hr hpre hne
      have he1 : e ∈ fs1 := by
        by_cases hx : isEmptyDir fs1 d = true
        · rw [if_pos hx] at he
          exact (mem_eraseFS.mp he).1
        · rw [if_neg hx] at he
          exact he
      obtain ⟨hS1, hmem1⟩ := h5 e he1 r hr hpre hne
      refine ⟨hS1, ?_⟩
      rcases List.mem_cons.mp hmem1 with hx | hx
      · exfalso
        by_cases hy : isEmptyDir fs1 d = true
        · rw [if_pos hy] at he
          exact (mem_eraseFS.mp he).2 hx
        · have hdir1 := mem_lookupFS hnd he1
          rw [hx] at hdir1
          rcases h3 e.1 hS1 with hdir | hnone
          · rw [hx] at hdir
            rw [hdir1] at hdir
            have he2 : e.2 = FType.dir := Option.some.inj hdir
            rw [he2] at hdir1
            exact hy (hempty (hx ▸ hS1) hdir1)
          · rw [hx, hdir1] at hnone
            cases hnone
      · exact hx

-- small helpers for the round-trip analysis

theorem lastComponent_mem {a : FPath} (h : a ≠ []) : lastComponent a ∈ a := by
  obtain ⟨xs, x, rfl⟩ := exists_concat_of_ne_nil h
  rw [lastComponent_concat]
  simp

theorem lookupFS_erase_none {fs : FS} {q : FPath} (p : FPath)
    (h : lookupFS fs q = none) : lookupFS (eraseFS fs p) q = none := by
  rw [lookupFS_erase]
  split
  · rfl
  · exact h

theorem sweepDirs_not_mem {p : FPath} :
    ∀ (ds : List FPath) (fs1 : FS), p ∉ ds →
      lookupFS (sweepDirs fs1 ds) p = lookupFS fs1 p
  | [], fs1 => fun _ => rfl
  | d :: ds, fs1 => by
    intro hp
    have hrun : sweepDirs fs1 (d :: ds) =
        sweepDirs (if isEmptyDir fs1 d then eraseFS fs1 d else fs1) ds := rfl
    rw [hrun, sweepDirs_not_mem ds _ (fun hm => hp (List.mem_cons_of_mem d hm))]
    split
    · exact lookupFS_erase_ne fs1 d p (fun hc => hp (hc ▸ List.mem_cons_self d ds))
    · rfl

theorem target_len_gt {b o a : FPath} (hblen : b.length < a.length) :
    o.length < (o ++ relUnder b a).length := by
  rw [target_length]
  omega

theorem target_ne_o {b o a : FPath} (hblen : b.length < a.length) :
    o ++ relUnder b a ≠ o := by
  intro h
  have h2 := congrArg List.length h
  have h3 := @target_len_gt b o a hblen
  omega

theorem dropLast_target {b o a : FPath} (hblen : b.length < a.length) :
    (o ++ relUnder b a).dropLast = o ++ (relUnder b a).dropLast :=
  List.dropLast_append_of_ne_nil o (rel_ne_nil hblen)

theorem o_prefix_dropLast_target {b o a : FPath} (hblen : b.length < a.length) :
    o <+: (o ++ relUnder b a).dropLast := by
  rw [dropLast_target hblen]
  exact List.prefix_append o _

theorem b_prefix_dropLast_marker {b a : FPath} (hba : b <+: a)
    (hblen : b.length < a.length) : b <+: (markerPath a).dropLast := by
  rw [markerPath_dropLast (ne_nil_of_lt_length hblen)]
  exact prefix_dropLast_of_lt hba hblen

theorem processMarker_roundtrip {fs g : FS} {b o : FPath}
    (hyp : promoteHypsb fs b o = true)
    (hinv : PromoteInv fs b o (find_files fs b has_artifacts) g)
    {A : List FPath} {gc : FS} {D : List FPath} {a : FPath}
    (ha : a ∈ find_files fs b has_artifacts)
    (hA : ∀ x ∈ A, x ∈ find_files fs b has_artifacts)
    (hnotin : a ∉ A)
    (hc : CInv g b o (find_files fs b has_artifacts) A gc D) :
    processMarker b [o] (gc, D) (markerPath a) =
      .ok (eraseFS (eraseFS gc (o ++ relUnder b a)) (markerPath a),
        recordAnc b (markerPath a).dropLast
          (recordAnc o (o ++ relUnder b a).dropLast D)) ∧
    CInv g b o (find_files fs b has_artifacts) (a :: A)
      (eraseFS (eraseFS gc (o ++ relUnder b a)) (markerPath a))
      (recordAnc b (markerPath a).dropLast
        (recordAnc o (o ++ relUnder b a).dropLast D)) := by
  obtain ⟨hwf, hbo, hob, hall⟩ := promoteHypsb_spec hyp
  obtain ⟨t, hlk, hy, hart, hba, hblen⟩ := art_facts hwf ha
  obtain ⟨hgnd, hGM, hGA, hGX, hGC, hGU, hGD⟩ := hinv
  obtain ⟨c1, c2, c3, c4, c5, c6⟩ := hc
  have haen : a ≠ [] := ne_nil_of_lt_length hblen
  have hbm : b <+: markerPath a := bside_markerPath hba hblen
  have hXne : o ++ relUnder b a ≠ [] := target_ne_nil (rel_ne_nil hblen)
  have hoX : o <+: o ++ relUnder b a := List.prefix_append o _
  have hlast : lastComponent a ≠ "" :=
    wfb_comp hwf (lookupFS_mem hlk) (lastComponent_mem haen)
  have hcp : computedPath b o (markerPath a) = o ++ relUnder b a :=
    computedPath_markerPath o hba hblen hlast
  have hmarkX : markerPath a ≠ o ++ relUnder b a :=
    bside_ne_oside hbo hob hbm (Or.inr hoX)
  have htd : t ≠ FType.dir := by
    intro h
    rw [h] at hy
    cases hy
  have hgcX : lookupFS gc (o ++ relUnder b a) = some t := by
    have h2 : lookupFS gc (o ++ relUnder b a) =
        lookupFS g (o ++ relUnder b a) := by
      refine c2 _ (fun x hx => ?_)
      obtain ⟨tx, _, _, _, hbx, hblenx⟩ := art_facts hwf (hA x hx)
      have hxa : x ≠ a := fun h => hnotin (h ▸ hx)
      exact ⟨(bside_ne_oside hbo hob (bside_markerPath hbx hblenx)
          (Or.inr hoX)).symm,
        target_ne hba hbx hxa.symm⟩
    rw [h2, hGX a ha, hlk]
  have hstep1 : cleanup gc (o ++ relUnder b a) o D =
      .ok (eraseFS gc (o ++ relUnder b a),
        recordAnc o (o ++ relUnder b a).dropLast D) := by
    rw [cleanup_file hgcX htd, if_neg hXne]
  have hstep1o : cleanupOutputs b (markerPath a) [o] (gc, D) =
      .ok (eraseFS gc (o ++ relUnder b a),
        recordAnc o (o ++ relUnder b a).dropLast D) := by
    unfold cleanupOutputs
    rw [hcp]
    simp only [hstep1]
    rfl
  have hgcM : lookupFS (eraseFS gc (o ++ relUnder b a)) (markerPath a) =
      some (.file 0) := by
    rw [lookupFS_erase_ne _ _ _ hmarkX]
    have h2 : lookupFS gc (markerPath a) = lookupFS g (markerPath a) := by
      refine c2 _ (fun x hx => ?_)
      obtain ⟨tx, _, _, _, hbx, hblenx⟩ := art_facts hwf (hA x hx)
      have hxne : x ≠ [] := ne_nil_of_lt_length hblenx
      have hxa : x ≠ a := fun h => hnotin (h ▸ hx)
      exact ⟨fun h => hxa (markerPath_inj haen hxne h).symm,
        bside_ne_oside hbo hob hbm (Or.inr (List.prefix_append o _))⟩
    rw [h2]
    exact hGM a ha
  have hstep2 : cleanup (eraseFS gc (o ++ relUnder b a)) (markerPath a) b
      (recordAnc o (o ++ relUnder b a).dropLast D) =
      .ok (eraseFS (eraseFS gc (o ++ relUnder b a)) (markerPath a),
        recordAnc b (markerPath a).dropLast
          (recordAnc o (o ++ relUnder b a).dropLast D)) := by
    rw [cleanup_file hgcM (by intro h; cases h), if_neg (markerPath_ne_nil a)]
  have hOp : o <+: (o ++ relUnder b a).dropLast := o_prefix_dropLast_target hblen
  have hBp : b <+: (markerPath a).dropLast := b_prefix_dropLast_marker hba hblen
  refine ⟨?_, ?_, ?_, ?_, ?_, ?_, ?_⟩
  · unfold processMarker
    simp only [hstep1o]
    exact hstep2
  · exact keysNodupb_erase (keysNodupb_erase c1 _) _
  · intro p hp
    obtain ⟨hpm, hpX⟩ := hp a (List.mem_cons_self a A)
    rw [lookupFS_erase_ne _ _ _ hpm, lookupFS_erase_ne _ _ _ hpX]
    exact c2 p (fun x hx => hp x (List.mem_cons_of_mem a hx))
  · intro x hx
    rcases List.mem_cons.mp hx with rfl | hx
    · constructor
      · exact lookupFS_erase_self _ _
      · rw [lookupFS_erase_ne _ _ _ hmarkX.symm]
        exact lookupFS_erase_self _ _
    · obtain ⟨h1, h2⟩ := c3 x hx
      exact ⟨lookupFS_erase_none _ (lookupFS_erase_none _ h1),
        lookupFS_erase_none _ (lookupFS_erase_none _ h2)⟩
  · intro q hq h1 h2
    rcases recordAnc_provenance hBp q hq with hq2 | ⟨j, hj1, hj2, rfl⟩
    · have hD2up : UpClosedTop o
          (recordAnc o (o ++ relUnder b a).dropLast D) :=
        recordAnc_upclosed hOp c4
      rcases hD2up q hq2 h1 h2 with hc | hc
      · exact Or.inl hc
      · exact Or.inr (recordAnc_sub _ hc)
    · exfalso
      have hbq : b <+: (markerPath a).dropLast.take j :=
        prefix_take_of_pref hBp (by omega)
      rcases List.prefix_or_prefix_of_prefix hbq h1 with hc | hc
      · exact hbo hc
      · exact hob hc
  · intro x hx n hn hln
    rcases List.mem_cons.mp hx with rfl | hx
    · exact recordAnc_sub _ (recordAnc_complete hOp c4 n hn hln)
    · exact recordAnc_sub _ (recordAnc_sub _ (c5 x hx n hn hln))
  · intro q hq
    rcases recordAnc_provenance hBp q hq with hq2 | ⟨j, hj1, hj2, rfl⟩
    · rcases recordAnc_provenance hOp q hq2 with hq3 | ⟨j, hj1, hj2, rfl⟩
      · exact c6 q hq3
      · constructor
        · intro hqo
          have h2 := hqo.length_le
          rw [List.length_take_of_le hj2] at h2
          omega
        · intro _
          exact ⟨a, ha, j, hj1, hj2, rfl⟩
    · have hbq : b <+: (markerPath a).dropLast.take j :=
        prefix_take_of_pref hBp (by omega)
      constructor
      · intro hqo
        exact hbo (hbq.trans hqo)
      · intro hc
        exfalso
        rcases List.prefix_or_prefix_of_prefix hbq hc with h | h
        · exact hbo h
        · exact hob h

theorem processMarkers_roundtrip {fs g : FS} {b o : FPath}
    (hyp : promoteHypsb fs b o = true)
    (hinv : PromoteInv fs b o (find_files fs b has_artifacts) g) :
    ∀ (ms A : List FPath) (gc : FS) (D : List FPath),
      (∀ m ∈ ms, ∃ a ∈ find_files fs b has_artifacts,
        m = markerPath a ∧ a ∉ A) →
      (∀ x ∈ A, x ∈ find_files fs b has_artifacts) →
      ms.Nodup →
      CInv g b o (find_files fs b has_artifacts) A gc D →
      ∃ A2 gc2 D2, processMarkers b [o] ms (gc, D) = .ok (gc2, D2) ∧
        (∀ x ∈ A2, x ∈ find_files fs b has_artifacts) ∧
        (∀ x ∈ A, x ∈ A2) ∧
        (∀ a ∈ find_files fs b has_artifacts, markerPath a ∈ ms → a ∈ A2) ∧
        CInv g b o (find_files fs b has_artifacts) A2 gc2 D2
  | [], A, gc, D => by
    intro _ hA _ hc
    exact ⟨A, gc, D, rfl, hA, fun x hx => hx,
      fun a _ hm => absurd hm (List.not_mem_nil _), hc⟩
  | m :: ms, A, gc, D => by
    intro hms hA hnd hc
    obtain ⟨hmnotin, hndms⟩ := List.nodup_cons.mp hnd
    obtain ⟨a, ha, rfl, hanotin⟩ := hms _ (List.mem_cons_self _ _)
    obtain ⟨hwf, _, _, _⟩ := promoteHypsb_spec hyp
    obtain ⟨_, _, _, _, _, hblen⟩ := art_facts hwf ha
    have haen : a ≠ [] := ne_nil_of_lt_length hblen
    obtain ⟨hrun1, hc2⟩ := processMarker_roundtrip hyp hinv ha hA hanotin hc
    obtain ⟨A2, gc2, D2, hrun2, hA2, hsub, hcov, hc3⟩ :=
      processMarkers_roundtrip hyp hinv ms (a :: A) _ _
        (fun m2 hm2 => by
          obtain ⟨a2, ha2, rfl, ha2notin⟩ := hms m2 (List.mem_cons_of_mem _ hm2)
          refine ⟨a2, ha2, rfl, fun hmem => ?_⟩
          rcases List.mem_cons.mp hmem with rfl | hmem2
          · exact hmnotin hm2
          · exact ha2notin hmem2)
        (fun x hx => by
          rcases List.mem_cons.mp hx with rfl | hx2
          · exact ha
          · exact hA x hx2)
        hndms hc2
    refine ⟨A2, gc2, D2, ?_, hA2, fun x hx => hsub x (List.mem_cons_of_mem a hx),
      ?_, hc3⟩
    · unfold processMarkers
      simp only [hrun1]
      exact hrun2
    · intro a2 ha2 hm2
      rcases List.mem_cons.mp hm2 with heq | hm3
      · obtain ⟨_, _, _, _, _, hblen2⟩ := art_facts hwf ha2
        have := markerPath_inj (ne_nil_of_lt_length hblen2) haen heq
        rw [this]
        exact hsub a (List.mem_cons_self a A)
      · exact hcov a2 ha2 hm3

/-- After promotion, every artifact's marker is enumerated by the cleanup
pass. -/
theorem marker_mem_of_art {fs g : FS} {b o : FPath}
    (hyp : promoteHypsb fs b o = true)
    (hinv : PromoteInv fs b o (find_files fs b has_artifacts) g)
    {a : FPath} (ha : a ∈ find_files fs b has_artifacts) :
    markerPath a ∈ find_files g b has_markers := by
  obtain ⟨hwf, _, _, _⟩ := promoteHypsb_spec hyp
  obtain ⟨t, hlk, hy, _, hba, hblen⟩ := art_facts hwf ha
  obtain ⟨_, hGM, _, _, _, _, hGD⟩ := hinv
  have haen : a ≠ [] := ne_nil_of_lt_length hblen
  refine mem_find_files.mpr ⟨.file 0, lookupFS_mem (hGM a ha), ?_, ?_, rfl⟩
  · simp only [visitedBy, Bool.and_eq_true, List.all_eq_true]
    constructor
    · refine strictUnderb_iff.mpr ⟨bside_markerPath hba hblen, ?_⟩
      rw [markerPath_length haen]
      exact hblen
    · intro q hq
      obtain ⟨n, hbn, hnm, rfl⟩ := mem_ancestorsBetween.mp hq
      rw [markerPath_length haen] at hnm
      rw [markerPath_take haen hnm]
      simp only [Bool.and_eq_true, decide_eq_true_eq]
      have hne : a.take n ≠ [] := by
        intro hx
        have h2 := congrArg List.length hx
        rw [List.length_take_of_le (by omega)] at h2
        simp at h2
        omega
      have hfs : lookupFS fs (a.take n) = some .dir := by
        refine wfb_anc hwf (lookupFS_mem hlk) (List.take_prefix n a) hne ?_
        rw [List.length_take_of_le (by omega)]
        exact hnm
      exact ⟨hGD _ hfs, rfl⟩
  · simp only [has_markers]
    exact endsWithMarker_markerPath haen

/-- Every marker the cleanup pass enumerates after promotion is some
artifact's marker, provided the tree held no markers beforehand. -/
theorem art_of_marker_mem {fs g : FS} {b o : FPath}
    (hyp : promoteHypsb fs b o = true)
    (hinv : PromoteInv fs b o (find_files fs b has_artifacts) g)
    (hnomk : find_files fs b has_markers = [])
    {m : FPath} (hm : m ∈ find_files g b has_markers) :
    ∃ a ∈ find_files fs b has_artifacts, m = markerPath a := by
  obtain ⟨hwf, hbo, hob, _⟩ := promoteHypsb_spec hyp
  obtain ⟨hgnd, _, hGA, _, _, hGU, _⟩ := hinv
  obtain ⟨t, hmem, hv, hp, hy⟩ := mem_find_files.mp hm
  have hlkg : lookupFS g m = some t := mem_lookupFS hgnd hmem
  have hstrict : strictUnderb b m = true := by
    simp only [visitedBy, Bool.and_eq_true] at hv
    exact hv.1
  obtain ⟨hbmm, hblenm⟩ := strictUnderb_iff.mp hstrict
  obtain ⟨k, rfl⟩ : ∃ k, t = FType.file k := by
    cases t with
    | dir => cases hy
    | file k => exact ⟨k, rfl⟩
    | symlink => simp [has_markers] at hp
  simp only [has_markers] at hp
  by_cases hcase : ∃ a ∈ find_files fs b has_artifacts, m = markerPath a
  · exact hcase
  · exfalso
    have hun : lookupFS g m = lookupFS fs m := by
      refine hGU m (fun a ha => ?_)
      refine ⟨fun h => hcase ⟨a, ha, h⟩, ?_, ?_, fun n _ _ => ?_⟩
      · intro h
        rw [h, hGA a ha] at hlkg
        cases hlkg
      · exact bside_ne_oside hbo hob hbmm (Or.inr (List.prefix_append o _))
      · exact bside_ne_oside hbo hob hbmm
          (oside_chainPos (List.prefix_append o _) n)
    rw [hun] at hlkg
    have hmfs : m ∈ find_files fs b has_markers := by
      refine mem_find_files.mpr ⟨.file k, lookupFS_mem hlkg, ?_, hp, rfl⟩
      simp only [visitedBy, Bool.and_eq_true, List.all_eq_true]
      refine ⟨hstrict, fun q hq => ?_⟩
      obtain ⟨hqm, hbq, hqlen⟩ := mem_ancestorsBetween_iff.mp hq
      simp only [Bool.and_eq_true, decide_eq_true_eq]
      have hne : q ≠ [] := by
        intro hx
        rw [hx] at hbq
        simp at hbq
      exact ⟨wfb_anc hwf (lookupFS_mem hlkg) hqm hne hqlen, rfl⟩
    rw [hnomk] at hmfs
    exact absurd hmfs (List.not_mem_nil m)

/-- The promote-then-clean round trip: with an existing output directory,
fresh destinations and destination parents, and no pre-existing markers,
the output directory is returned exactly to its pre-promotion state, while
the promoted artifacts and their markers are consumed from the build
directory. -/
theorem roundtrip_props {fs : FS} {b o : FPath}
    (hyp : promoteHypsb fs b o = true)
    (ho : lookupFS fs o = some .dir)
    (hfreshX : ∀ a ∈ find_files fs b has_artifacts,
      lookupFS fs (o ++ relUnder b a) = none)
    (hfreshC : ∀ a ∈ find_files fs b has_artifacts, ∀ n, o.length < n →
      n ≤ (o ++ relUnder b a).dropLast.length →
      lookupFS fs ((o ++ relUnder b a).dropLast.take n) = none)
    (hnomk : find_files fs b has_markers = []) :
    ∃ g h, copy_build_files fs b o = .ok g ∧
      clean_build_files g b [o] = .ok h ∧
      (∀ p, o <+: p → lookupFS h p = lookupFS fs p) ∧
      (∀ a ∈ find_files fs b has_artifacts,
        lookupFS h a = none ∧ lookupFS h (markerPath a) = none) := by
  obtain ⟨hwf, hbo, hob, hall⟩ := promoteHypsb_spec hyp
  -- run the promotion
  have hinv0 : PromoteInv fs b o [] fs := by
    refine ⟨wfb_nodup hwf, ?_, ?_, ?_, ?_, fun p _ => rfl, fun p h => h⟩ <;>
      exact fun a ha => (List.not_mem_nil a ha).elim
  obtain ⟨g, hrun, hinv1⟩ := copyGo_inv hyp (find_files fs b has_artifacts)
    [] fs (fun x hx => hx) (fun x hx => (List.not_mem_nil x hx).elim)
    (fun x _ => List.not_mem_nil x) (find_files_nodup (wfb_nodup hwf)) hinv0
  have hinv : PromoteInv fs b o (find_files fs b has_artifacts) g :=
    promoteInv_congr (fun x => by simp) hinv1
  obtain ⟨hgnd, hGM, hGA, hGX, hGC, hGU, hGD⟩ := hinv
  -- run the marker-processing loop of the cleanup
  have hc0 : CInv g b o (find_files fs b has_artifacts) [] g [] := by
    refine ⟨hgnd, fun p _ => rfl, ?_, ?_, ?_, ?_⟩
    · exact fun a ha => (List.not_mem_nil a ha).elim
    · exact fun q hq => (List.not_mem_nil q hq).elim
    · exact fun a ha => (List.not_mem_nil a ha).elim
    · exact fun q hq => (List.not_mem_nil q hq).elim
  obtain ⟨A2, gf, Df, hrunM, hA2, _, hcov, hcf⟩ :=
    processMarkers_roundtrip hyp
      ⟨hgnd, hGM, hGA, hGX, hGC, hGU, hGD⟩
      (find_files g b has_markers) [] g []
      (fun m hm => by
        obtain ⟨a, ha, rfl⟩ := art_of_marker_mem hyp
          ⟨hgnd, hGM, hGA, hGX, hGC, hGU, hGD⟩ hnomk hm
        exact ⟨a, ha, rfl, List.not_mem_nil a⟩)
      (fun x hx => (List.not_mem_nil x hx).elim)
      (find_files_nodup hgnd) hc0
  obtain ⟨c1, c2, c3, c4, c5, c6⟩ := hcf
  have hartsA2 : ∀ a ∈ find_files fs b has_artifacts, a ∈ A2 :=
    fun a ha => hcov a ha (marker_mem_of_art hyp
      ⟨hgnd, hGM, hGA, hGX, hGC, hGU, hGD⟩ ha)
  have hclean : clean_build_files g b [o] =
      .ok (sweepDirs gf (sortDesc Df)) := by
    unfold clean_build_files
    simp only [hrunM]
  -- the swept state
  have hF1 : ∀ q, chainPosOf b o (find_files fs b has_artifacts) q →
      lookupFS gf q = some .dir := by
    intro q hq
    unfold chainPosOf at hq
    obtain ⟨a, ha, n, hn1, hn2, rfl⟩ := hq
    obtain ⟨_, _, _, _, hba, hblen⟩ := art_facts hwf ha
    have hoX : o <+: o ++ relUnder b a := List.prefix_append o _
    have hXne : o ++ relUnder b a ≠ [] := target_ne_nil (rel_ne_nil hblen)
    have h2 : lookupFS gf ((o ++ relUnder b a).dropLast.take n) =
        lookupFS g ((o ++ relUnder b a).dropLast.take n) := by
      refine c2 _ (fun x hx => ?_)
      obtain ⟨_, _, _, _, hbx, hblenx⟩ := art_facts hwf (hA2 x hx)
      refine ⟨(bside_ne_oside hbo hob (bside_markerPath hbx hblenx)
        (oside_chainPos hoX n)).symm, ?_⟩
      by_cases hxa : x = a
      · rw [hxa]
        exact chainPos_ne_self hXne n
      · exact (target_chain_clash hwf (hA2 x hx) ha hxa n).symm
    rw [h2]
    exact hGC a ha n (by omega) hn2
  have hF2 : ∀ q, chainPosOf b o (find_files fs b has_artifacts) q →
      q ∈ Df := by
    intro q hq
    unfold chainPosOf at hq
    obtain ⟨a, ha, n, hn1, hn2, rfl⟩ := hq
    exact c5 a (hartsA2 a ha) n hn1 hn2
  have hF3 : ∀ p, o <+: p → p ≠ o →
      (¬∃ a ∈ find_files fs b has_artifacts, p = o ++ relUnder b a) →
      ¬chainPosOf b o (find_files fs b has_artifacts) p →
      lookupFS gf p = lookupFS fs p := by
    intro p hop hpo hpX hpS
    have h2 : lookupFS gf p = lookupFS g p := by
      refine c2 _ (fun x hx => ?_)
      obtain ⟨_, _, _, _, hbx, hblenx⟩ := art_facts hwf (hA2 x hx)
      exact ⟨(bside_ne_oside hbo hob (bside_markerPath hbx hblenx)
          (Or.inr hop)).symm,
        fun h => hpX ⟨x, hA2 x hx, h⟩⟩
    rw [h2]
    refine hGU p (fun a ha => ?_)
    obtain ⟨_, _, _, _, hba, hblen⟩ := art_facts hwf ha
    refine ⟨(bside_ne_oside hbo hob (bside_markerPath hba hblen)
        (Or.inr hop)).symm,
      (bside_ne_oside hbo hob hba (Or.inr hop)).symm,
      fun h => hpX ⟨a, ha, h⟩, fun n hn1 hn2 h => ?_⟩
    have hoXd : o <+: (o ++ relUnder b a).dropLast :=
      o_prefix_dropLast_target hblen
    rcases Nat.lt_or_ge o.length n with hcase | hcase
    · exact hpS ⟨a, ha, n, hcase, hn2, h⟩
    · have hqo : (o ++ relUnder b a).dropLast.take n <+: o := by
        have h2 : (o ++ relUnder b a).dropLast.take n <+:
            (o ++ relUnder b a).dropLast.take o.length :=
          List.take_prefix_take_left _ hcase
        rwa [take_of_pref hoXd] at h2
      rw [← h] at hqo
      have hlen : p.length = o.length :=
        Nat.le_antisymm hqo.length_le hop.length_le
      exact hpo (List.IsPrefix.eq_of_length hop hlen.symm).symm
  have hF4 : lookupFS gf o = some .dir := by
    have h2 : lookupFS gf o = lookupFS g o := by
      refine c2 _ (fun x hx => ?_)
      obtain ⟨_, _, _, _, hbx, hblenx⟩ := art_facts hwf (hA2 x hx)
      exact ⟨(bside_ne_oside hbo hob (bside_markerPath hbx hblenx)
          (Or.inl (List.prefix_refl o))).symm,
        (target_ne_o hblenx).symm⟩
    rw [h2]
    exact hGD o ho
  have hF5 : o ∉ Df := fun hm => (c6 o hm).1 (List.prefix_refl o)
  have hsweepS : ∀ q, chainPosOf b o (find_files fs b has_artifacts) q →
      lookupFS (sweepDirs gf (sortDesc Df)) q = none := by
    refine sweep_clears _ (sortDesc Df) gf c1 (sortDesc_pairwise Df)
      (fun q hq => Or.inl (hF1 q hq))
      (fun q hq hnm =>
        absurd ((sortDesc_perm Df).mem_iff.mpr (hF2 q hq)) hnm) ?_
    intro e he q hq hqe hne
    have hep : lookupFS gf e.1 = some e.2 := mem_lookupFS c1 he
    have hq2 := hq
    unfold chainPosOf at hq2
    obtain ⟨a, ha, n, hn1, hn2, rfl⟩ := hq2
    obtain ⟨_, _, _, _, hba, hblen⟩ := art_facts hwf ha
    have hoXd : o <+: (o ++ relUnder b a).dropLast :=
      o_prefix_dropLast_target hblen
    have hlq : ((o ++ relUnder b a).dropLast.take n).length = n :=
      List.length_take_of_le hn2
    have hoq : o <+: (o ++ relUnder b a).dropLast.take n :=
      prefix_take_of_pref hoXd (by omega)
    have hoe : o <+: e.1 := hoq.trans hqe
    have hlqe : ((o ++ relUnder b a).dropLast.take n).length < e.1.length := by
      rcases Nat.lt_or_ge ((o ++ relUnder b a).dropLast.take n).length
          e.1.length with h | h
      · exact h
      · exfalso
        exact hne (List.IsPrefix.eq_of_length hqe
          (Nat.le_antisymm hqe.length_le h)).symm
    have heo : e.1 ≠ o := by
      intro hx
      rw [hx] at hlqe
      omega
    by_cases hS : chainPosOf b o (find_files fs b has_artifacts) e.1
    · exact ⟨hS, (sortDesc_perm Df).mem_iff.mpr (hF2 _ hS)⟩
    · exfalso
      by_cases hX2 : ∃ a2 ∈ find_files fs b has_artifacts,
          e.1 = o ++ relUnder b a2
      · obtain ⟨a2, ha2, hx⟩ := hX2
        have := (c3 a2 (hartsA2 a2 ha2)).2
        rw [← hx, hep] at this
        cases this
      · have hfs := hF3 e.1 hoe heo hX2 hS
        rw [hfs] at hep
        have hqne : (o ++ relUnder b a).dropLast.take n ≠ [] := by
          intro hx
          have h2 := congrArg List.length hx
          rw [hlq] at h2
          simp at h2
          omega
        have := wfb_anc hwf (lookupFS_mem hep) hqe hqne hlqe
        rw [hfreshC a ha n hn1 hn2] at this
        cases this
  refine ⟨g, sweepDirs gf (sortDesc Df), hrun, hclean, ?_, ?_⟩
  · -- the output directory is restored
    intro p hop
    by_cases hpo : p = o
    · rw [hpo, sweepDirs_not_mem _ _
        (fun hm => hF5 ((sortDesc_perm Df).mem_iff.mp hm)), hF4, ho]
    by_cases hpX : ∃ a ∈ find_files fs b has_artifacts, p = o ++ relUnder b a
    · obtain ⟨a, ha, rfl⟩ := hpX
      rw [hfreshX a ha]
      exact onlyErased_none (sweepDirs_props gf (sortDesc Df)).1
        ((c3 a (hartsA2 a ha)).2)
    by_cases hpS : chainPosOf b o (find_files fs b has_artifacts) p
    · rw [hsweepS p hpS]
      have hpS2 := hpS
      unfold chainPosOf at hpS2
      obtain ⟨a, ha, n, hn1, hn2, rfl⟩ := hpS2
      rw [hfreshC a ha n hn1 hn2]
    · have hnot : p ∉ sortDesc Df := by
        intro hm
        exact hpS ((c6 p ((sortDesc_perm Df).mem_iff.mp hm)).2 hop)
      rw [sweepDirs_not_mem _ _ hnot]
      exact hF3 p hop hpo hpX hpS
  · -- artifacts and markers are consumed
    intro a ha
    obtain ⟨hmka, _, _⟩ := hall a ha
    obtain ⟨_, _, _, _, hba, hblen⟩ := art_facts hwf ha
    constructor
    · have h2 : lookupFS gf a = lookupFS g a := by
        refine c2 _ (fun x hx => ?_)
        obtain ⟨_, _, _, _, hbx, hblenx⟩ := art_facts hwf (hA2 x hx)
        obtain ⟨hmkx, _, _⟩ := hall x (hA2 x hx)
        exact ⟨art_ne_markerPath hwf ha (hA2 x hx) hmkx,
          bside_ne_oside hbo hob hba (Or.inr (List.prefix_append o _))⟩
      refine onlyErased_none (sweepDirs_props gf (sortDesc Df)).1 ?_
      rw [h2]
      exact hGA a ha
    · exact onlyErased_none (sweepDirs_props gf (sortDesc Df)).1
        ((c3 a (hartsA2 a ha)).1)

/-- C5 (corrected): the round trip restores the OUTPUT directory exactly —
under the promotion sanity conditions, an existing output directory, fresh
destination slots and destination parents, and no pre-existing markers —
and consumes the promoted artifacts and their markers from the build
directory; the build directory itself is not restored (its artifacts are
gone), as the counterexample shows. -/
theorem claim_C5 {fs : FS} {b o : FPath}
    (hyp : promoteHypsb fs b o = true)
    (ho : lookupFS fs o = some .dir)
    (hfreshX : ∀ a ∈ find_files fs b has_artifacts,
      lookupFS fs (o ++ relUnder b a) = none)
    (hfreshC : ∀ a ∈ find_files fs b has_artifacts, ∀ n, o.length < n →
      n ≤ (o ++ relUnder b a).dropLast.length →
      lookupFS fs ((o ++ relUnder b a).dropLast.take n) = none)
    (hnomk : find_files fs b has_markers = []) :
    ∃ g h, copy_build_files fs b o = .ok g ∧
      clean_build_files g b [o] = .ok h ∧
      (∀ p, o <+: p → lookupFS h p = lookupFS fs p) ∧
      (∀ a ∈ find_files fs b has_artifacts,
        lookupFS h a = none ∧ lookupFS h (markerPath a) = none) :=
  roundtrip_props hyp ho hfreshX hfreshC hnomk

theorem claim_C5_witness :
    (promoteHypsb fsC5fix ["b"] ["o"] = true ∧
     lookupFS fsC5fix ["o"] = some .dir ∧
     find_files fsC5fix ["b"] has_markers = []) ∧
    (∃ g h, copy_build_files fsC5fix ["b"] ["o"] = .ok g ∧
      clean_build_files g ["b"] [["o"]] = .ok h ∧
      (∀ p, ["o"] <+: p → lookupFS h p = lookupFS fsC5fix p) ∧
      (∀ a ∈ find_files fsC5fix ["b"] has_artifacts,
        lookupFS h a = none ∧ lookupFS h (markerPath a) = none)) :=
  ⟨⟨by decide, by decide, by decide⟩,
   @claim_C5 fsC5fix ["b"] ["o"] (by decide) (by decide) (by decide)
     (by
       intro a ha n h1 h2
       rw [show find_files fsC5fix ["b"] has_artifacts =
         [["b", "pkg", "foo.rpm"]] from rfl] at ha
       rw [List.mem_singleton] at ha
       subst ha
       have hlen : ((["o"] : FPath) ++
           relUnder ["b"] ["b", "pkg", "foo.rpm"]).dropLast.length = 2 := rfl
       rw [hlen] at h2
       have h1b : 1 < n := by simpa using h1
       have hn : n = 2 := by omega
       subst hn
       decide)
     (by decide)⟩

/-- The round trip does NOT restore the build directory: promoting the one
artifact of `fsC5fix` and cleaning afterwards leaves the build directory
without its `pkg` subdirectory (the artifact was consumed), so the claimed
restoration of the marker directory fails. -/
theorem claim_C5_counterexample :
    ∃ g h, copy_build_files fsC5fix ["b"] ["o"] = .ok g ∧
      clean_build_files g ["b"] [["o"]] = .ok h ∧
      lookupFS fsC5fix ["b", "pkg"] = some .dir ∧
      lookupFS h ["b", "pkg"] = none :=
  ⟨_, _, rfl, rfl, rfl, rfl⟩
